import Mathlib

/-!
Verification of the morfessor segmentation-tree core against its
natural-language specification.

The development shallowly embeds the two translation units under `src/`
(`morph_node.cc` and `segmentation.cc`).  Machine integers (`size_t`,
`int`) are modelled as `Nat`/`Int`; `double` values are modelled as real
numbers, with the C `double → int` conversion modelled as truncation
toward zero.  The node store `std::unordered_map<std::string, MorphNode>`
is modelled as an association list with unique keys; iteration order of
the map is irrelevant to every property proved here.

Code of the repository that is *not* under `src/` (the current
`morph_node.h`/`segmentation.h` headers and the `Model` class) is
modelled from the specification where needed; each such definition says
so in its doc comment.
-/

set_option maxHeartbeats 1000000
set_option maxRecDepth 100000

namespace Morfessor

/-- A node of the segmentation tree, mirroring `MorphNode` in the source:
a `count` plus `left_child`/`right_child` morph keys, where the empty
string means "no child". -/
structure MorphNode where
  count : Nat
  left_child : String
  right_child : String
deriving DecidableEq, Repr

/-- The node store `nodes_` (`std::unordered_map` keyed by morph string),
modelled as an association list with unique keys. -/
abbrev Store := List (String × MorphNode)

/-- Map lookup (`nodes_.find`); the map's keys are unique, so taking the
first matching entry is exact. -/
def findNode : Store → String → Option MorphNode
  | [], _ => none
  | p :: s, k => if p.1 = k then some p.2 else findNode s k

/-- `SegmentationTree::contains`. -/
def containsKey (s : Store) (k : String) : Bool :=
  (findNode s k).isSome

/-- Write through a key: replace the mapped node when the key is present,
append a fresh entry otherwise. -/
def setNode : Store → String → MorphNode → Store
  | [], k, n => [(k, n)]
  | p :: s, k, n => if p.1 = k then (k, n) :: s else p :: setNode s k n

/-- Map erasure (`nodes_.erase`); keys are unique. -/
def eraseNode : Store → String → Store
  | [], _ => []
  | p :: s, k => if p.1 = k then s else p :: eraseNode s k

/-- The count stored at a key, `0` when the key is absent (matching the
value-initialised node produced by `operator[]`). -/
def getCount (s : Store) (k : String) : Nat :=
  ((findNode s k).map (·.count)).getD 0

/-- The child links stored at a key, `("", "")` when the key is absent. -/
def getLinks (s : Store) (k : String) : String × String :=
  ((findNode s k).map (fun n => (n.left_child, n.right_child))).getD ("", "")

/-- A node is a leaf when it does not have both children
(`!MorphNode::has_children()`). -/
def isLeafNode (n : MorphNode) : Bool :=
  n.left_child = "" || n.right_child = ""

/-- The leaf entries of the store (the only nodes the cost model sees). -/
def leafList (s : Store) : Store :=
  s.filter (fun p => isLeafNode p.2)

/-- Number of leaf nodes in the store. -/
def numLeaves (s : Store) : Nat :=
  (leafList s).length

/-- Sum of `count` over the leaf nodes of the store. -/
def leafTokenSum (s : Store) : Nat :=
  ((leafList s).map (·.2.count)).sum

/-- `morph.substr(0, n)` (ASCII corpus: byte index = character index). -/
def strTake (s : String) (n : Nat) : String :=
  ⟨s.data.take n⟩

/-- `morph.substr(n)`. -/
def strDrop (s : String) (n : Nat) : String :=
  ⟨s.data.drop n⟩

/-- `word.substr(i, n)`. -/
def strSub (s : String) (i n : Nat) : String :=
  ⟨(s.data.drop i).take n⟩

/-- The `SegmentationTree` state: the node store plus the two global
counters used by `Split`/`IncreaseNodeCount` in `morph_node.cc`.  The
counters are kept as integers (their declarations are in the missing
header; the spec, section 3, describes them as derived integer
counters). -/
structure SegTree where
  nodes : Store
  total_morph_tokens : Int
  unique_morph_types : Int
deriving DecidableEq, Repr

/-- The default-constructed empty tree. -/
def emptyTree : SegTree := ⟨[], 0, 0⟩

/-- First step of `IncreaseNodeCount`: the `nodes_[subtree_key]` lookup
default-inserts a value-initialised node when the key is absent. -/
def incInsert (t : SegTree) (key : String) : SegTree :=
  if containsKey t.nodes key then t
  else { t with nodes := setNode t.nodes key ⟨0, "", ""⟩ }

/-- Last step of `IncreaseNodeCount`: `subtree.count += increase`, and
`total_morph_tokens_ += increase` when the node is a leaf. -/
def incBump (t : SegTree) (key : String) (inc : Nat) : SegTree :=
  let n := (findNode t.nodes key).getD ⟨0, "", ""⟩
  let t3 : SegTree :=
    { t with nodes := setNode t.nodes key ⟨n.count + inc, n.left_child, n.right_child⟩ }
  if n.left_child = "" ∨ n.right_child = "" then
    { t3 with total_morph_tokens := t3.total_morph_tokens + (inc : Int) }
  else t3

/-- `SegmentationTree::IncreaseNodeCount` (`morph_node.cc:65-83`):
`operator[]` default-inserts a count-0 node, the children (re-read from
the evolving store, as the C++ reference does) are recursively
increased first, then the node's own count is bumped, and
`total_morph_tokens_` is adjusted when the node is a leaf.  The `fuel`
argument bounds the recursion depth; on well-formed stores any
`fuel ≥` the key length suffices. -/
def increaseNodeCount : Nat → SegTree → String → Nat → SegTree
  | 0, t, _, _ => t
  | fuel + 1, t, key, inc =>
    let t0 := incInsert t key
    let t1 := if (getLinks t0.nodes key).1 = "" then t0
              else increaseNodeCount fuel t0 (getLinks t0.nodes key).1 inc
    let t2 := if (getLinks t1.nodes key).2 = "" then t1
              else increaseNodeCount fuel t1 (getLinks t1.nodes key).2 inc
    incBump t2 key inc

/-- Number of count-propagation paths from `k` to `x` along child links:
the number of times `IncreaseNodeCount(k, inc)` visits (and bumps) the
node `x`.  Mirrors the recursion structure of `IncreaseNodeCount`. -/
def pathCount : Nat → Store → String → String → Nat
  | 0, _, _, _ => 0
  | fuel + 1, s, k, x =>
    (if k = x then 1 else 0)
    + (if (getLinks s k).1 = "" then 0 else pathCount fuel s (getLinks s k).1 x)
    + (if (getLinks s k).2 = "" then 0 else pathCount fuel s (getLinks s k).2 x)

/-- Store well-formedness below a length bound `B`: every stored node
whose key is shorter than `B` has a positive count, has either no
children or two children, and its children are present in the store
with strictly shorter keys.  These are the documented invariants of the
segmentation tree, localised to the keys a `Split` of a length-`B`
morph can ever visit. -/
abbrev WFbelow (s : Store) (B : Nat) : Prop :=
  ∀ p ∈ s, p.1.length < B →
    0 < p.2.count ∧
    (p.2.left_child = "" → p.2.right_child = "") ∧
    (p.2.left_child ≠ "" →
      (findNode s p.2.left_child).isSome ∧ (findNode s p.2.right_child).isSome ∧
      p.2.left_child.length < p.1.length ∧ p.2.right_child.length < p.1.length)

/-- `SegmentationTree::Split` (`morph_node.cc:43-63`): set the two child
links, debit the old leaf count from `total_morph_tokens_`, push the
count into both children with `IncreaseNodeCount`, and adjust
`unique_morph_types_` by `-1` plus one for each child whose
post-increase count equals the parent count. -/
def splitTree (fuel : Nat) (t : SegTree) (morph : String) (left_length : Nat) : SegTree :=
  let l := strTake morph left_length
  let r := strDrop morph left_length
  let c0 := getCount t.nodes morph
  let t0 : SegTree :=
    { t with
      nodes := setNode t.nodes morph ⟨c0, l, r⟩
      total_morph_tokens := t.total_morph_tokens - (c0 : Int) }
  let t1 := increaseNodeCount fuel t0 l (getCount t0.nodes morph)
  let t2 := increaseNodeCount fuel t1 r (getCount t1.nodes morph)
  let c := getCount t2.nodes morph
  { t2 with
    unique_morph_types := t2.unique_morph_types - 1
      + (if getCount t2.nodes l = c then 1 else 0)
      + (if getCount t2.nodes r = c then 1 else 0) }

/-- `SegmentationTree::emplace`: `std::unordered_map::emplace` inserts a
leaf with the given count and does nothing when the key is present.
The accompanying counter maintenance is *modelled from the spec*: the
header declaring how `total_morph_tokens_`/`unique_morph_types_` react
to insertion is not among the sources, and spec sections 3 and 4.D
require the counters to equal the leaf-token sum and the leaf-type
count after every public operation. -/
def emplaceTree (t : SegTree) (m : String) (f : Nat) : SegTree :=
  if containsKey t.nodes m then t
  else
    { nodes := setNode t.nodes m ⟨f, "", ""⟩
      total_morph_tokens := t.total_morph_tokens + (f : Int)
      unique_morph_types := t.unique_morph_types + 1 }

/-- Wrapping `size_t` subtraction `a - b` (modulo `2^64`), as performed on
the unsigned counters inside `ProbabilityFromImplicitFrequencies`. -/
def sub64 (a b : Nat) : Nat :=
  (((a : Int) - (b : Int)) % (2 ^ 64)).toNat

/-- The arguments that `SegmentationTree::ProbabilityFromImplicitFrequencies`
(`morph_node.cc:95-119`) passes to `std::log2`, by branch: the exact
small-corpus branch (`total_morph_tokens_ < 100`) takes `log2` of the
binomial coefficient `C(total-1, unique-1)`, while the Stirling-style
branch takes `log2(total-2)`, `log2(unique-2)` and
`log2(total-unique-1)`, all computed in unsigned arithmetic. -/
def implicitFreqLog2Args (total unique : Nat) : List Nat :=
  if total < 100 then
    [Nat.choose (sub64 total 1) (sub64 unique 1)]
  else
    [sub64 total 2, sub64 unique 2, sub64 (sub64 total unique) 1]

/-- Per-character token-weighted letter counts accumulated by
`SegmentationTree::LetterProbabilities` (`morph_node.cc:133-184`):
`n(c) = Σ over leaves of count · (occurrences of c in the morph)`. -/
def letterCount (s : Store) (ch : Char) : Nat :=
  ((leafList s).map (fun p => p.2.count * p.1.data.count ch)).sum

/-- `total_letters` as accumulated over the leaves (one `+= count` per
character occurrence), before the end-marker augmentation. -/
def totalLetters (s : Store) : Nat :=
  ((leafList s).map (fun p => p.2.count * p.1.length)).sum

/-- `total_letters` after the optional end-marker augmentation
(`total_letters += total_morph_tokens` when `include_end_of_string`). -/
def lettersDenom (s : Store) (include_end : Bool) : Nat :=
  totalLetters s + if include_end then leafTokenSum s else 0

/-- The characters occurring in the leaf morphs: the keys of the letter
table, the end-marker `'#'` apart. -/
def letterSet (s : Store) : Finset Char :=
  (((leafList s).map (fun p => p.1.data)).flatten).toFinset

/-- The cost `LetterProbabilities` stores for an occurring character:
`log2(total_letters) - log2(n(c))` (a `double`; modelled in `Real`). -/
noncomputable def letterCostR (s : Store) (include_end : Bool) (ch : Char) : Real :=
  Real.logb 2 (lettersDenom s include_end) - Real.logb 2 (letterCount s ch)

/-- The cost stored for the end-of-morph marker `'#'`:
`log2(total_letters) - log2(total_morph_tokens)`. -/
noncomputable def endMarkerCostR (s : Store) (include_end : Bool) : Real :=
  Real.logb 2 (lettersDenom s include_end) - Real.logb 2 (leafTokenSum s)

/-- Modelled from the spec: the default convergence threshold
`ε = 0.005`; the `convergence_threshold_` member and its default are
declared in the missing header (spec section 4.E: "configurable;
default 0.005"). -/
def convergenceThresholdDefault : Rat := 5 / 1000

/-- The outer do-while loop of `SegmentationTree::Optimize`
(`morph_node.cc:309-338`), abstracted over one epoch: `epoch i` is the
i-th shuffled `ResplitNode` pass over the collected keys (the shuffle's
randomness is carried by the function), `cost` reads
`OverallCost(algorithm_mode_)` and `uniq` reads `unique_morph_types_`.
Returns the state after each executed epoch, or `none` when `fuel`
epochs did not reach the exit condition.  The `double` cost values are
modelled over an exact ordered field; the loop only compares them. -/
def optimizeLoop {σ : Type} (epoch : Nat → σ → σ) (cost uniq : σ → Rat) (ε : Rat) :
    Nat → Nat → σ → Option (List σ)
  | 0, _, _ => none
  | fuel + 1, i, s =>
    let s2 := epoch i s
    if cost s - cost s2 > ε * uniq s2 then
      (optimizeLoop epoch cost uniq ε fuel (i + 1) s2).map (fun tr => s2 :: tr)
    else some [s2]

/-- The per-candidate morph cost computed inside
`Segmentation::SegmentTestCorpus` (`segmentation.cc:73-85`).  The
accumulator was declared `auto morph_cost = 0`, which deduces `int`, so
every `double` assigned to it is truncated toward zero — modelled by
the `truncC` parameter.  A known morph (any stored node, leaf or
internal: the code tests `contains`) costs `log(total) − log(count)`;
an unknown single character costs `bad_likelihood = (n+1)·log(total)`;
a longer unknown substring yields no candidate. -/
def viterbiMorphCost {C : Type} [LinearOrderedField C] (lnC : Nat → C) (truncC : C → Int)
    (s : Store) (total : Nat) (n : Nat) (m : String) : Option Int :=
  match findNode s m with
  | some node => some (truncC (lnC total - lnC node.count))
  | none =>
    if m.length = 1 then some (truncC (((n + 1 : Nat) : C) * lnC total)) else none

/-- The inner scan of the Viterbi loop (`morph_length = 1 … j`),
tracking `best_delta`/`best_length` with the source's strict `<`
(ties keep the earlier, shorter candidate); `best_delta` starts at the
pseudo-infinite cost `(n+1)·bad_likelihood`. -/
def viterbiBest {C : Type} [LinearOrderedField C] (lnC : Nat → C) (truncC : C → Int)
    (s : Store) (total : Nat) (word : String) (n : Nat) (delta : List C) (j : Nat) :
    C × Nat :=
  (List.range' 1 j).foldl
    (fun best ml =>
      match viterbiMorphCost lnC truncC s total n (strSub word (j - ml) ml) with
      | none => best
      | some mc =>
        let cur := delta.getD (j - ml) 0 + (mc : C)
        if cur < best.1 then (cur, ml) else best)
    (((n + 1 : Nat) : C) * (((n + 1 : Nat) : C) * lnC total), 0)

/-- The `δ`/`ψ` tables built by the outer loop (`end_index = 1 … n`),
both initialised to zeroes of length `n + 1`. -/
def viterbiTables {C : Type} [LinearOrderedField C] (lnC : Nat → C) (truncC : C → Int)
    (s : Store) (total : Nat) (word : String) (n : Nat) : List C × List Nat :=
  (List.range' 1 n).foldl
    (fun tabs j =>
      let best := viterbiBest lnC truncC s total word n tabs.1 j
      (tabs.1.set j best.1, tabs.2.set j best.2))
    (List.replicate (n + 1) 0, List.replicate (n + 1) 0)

/-- The backtrace while-loop
(`str = word.substr(e − ψ[e], ψ[e]) + " " + str; e -= ψ[e]`): each
morph is emitted followed by one space, so a nonempty result keeps a
trailing space. -/
def viterbiBacktrace (word : String) (psi : List Nat) : Nat → Nat → String
  | 0, _ => ""
  | fuel + 1, e =>
    let p := psi.getD e 0
    if p = 0 then ""
    else viterbiBacktrace word psi fuel (e - p) ++ (strSub word (e - p) p ++ " ")

/-- The same backtrace, returning the morphs as a list. -/
def viterbiBacktraceList (word : String) (psi : List Nat) : Nat → Nat → List String
  | 0, _ => []
  | fuel + 1, e =>
    let p := psi.getD e 0
    if p = 0 then []
    else viterbiBacktraceList word psi fuel (e - p) ++ [strSub word (e - p) p]

/-- One word of `Segmentation::SegmentTestCorpus`. -/
def segmentWord {C : Type} [LinearOrderedField C] (lnC : Nat → C) (truncC : C → Int)
    (s : Store) (total : Nat) (word : String) : String :=
  let n := word.length
  let tabs := viterbiTables lnC truncC s total word n
  viterbiBacktrace word tabs.2 (n + 1) n

/-- The backtraced morph list of one word. -/
def segmentWordMorphs {C : Type} [LinearOrderedField C] (lnC : Nat → C) (truncC : C → Int)
    (s : Store) (total : Nat) (word : String) : List String :=
  let n := word.length
  let tabs := viterbiTables lnC truncC s total word n
  viterbiBacktraceList word tabs.2 (n + 1) n

/-- "morphs separated by a single space", each morph followed by one
space (the rendering the backtrace actually produces). -/
def joinSpace (l : List String) : String :=
  l.foldr (fun m acc => m ++ " " ++ acc) ""

/-- `std::log` applied to a `size_t` count (a `double`, modelled in `Real`). -/
noncomputable def lnNat (m : Nat) : Real :=
  Real.log m

/-- The C `double → int` conversion (truncation toward zero), as
performed by the `int`-typed `morph_cost` accumulator. -/
noncomputable def truncToInt (x : Real) : Int :=
  if 0 ≤ x then ⌊x⌋ else ⌈x⌉

/-- `Segmentation::SegmentTestCorpus` (`segmentation.cc:50-111`),
state-passing over the data it reads: the node store and the model's
`total_morph_tokens`.  The method performs no writes (`contains`/`at`
reads only), so the state passes through unchanged. -/
def segmentTestCorpus {C : Type} [LinearOrderedField C] (lnC : Nat → C) (truncC : C → Int)
    (st : Store × Nat) (corpus : List String) : (Store × Nat) × List String :=
  (st, corpus.map (fun w => segmentWord lnC truncC st.1 st.2 w))

/-- `Segmentation::AdjustMorphCount` (`segmentation.cc:113-175`), store
effects: `nodes_[morph]` default-inserts a value-initialised node, the
count becomes `count + delta` (the node is erased when that reaches
zero), and the saved children are then adjusted recursively with the
same delta.  The model hooks invoked at leaves maintain accumulators
that spec invariant 7 requires to equal their recomputed-from-scratch
values, so the model state is represented by recomputation from the
store (the `Model` class is not among the sources).  `fuel` bounds the
recursion depth. -/
def adjustMorphCount : Nat → Store → String → Int → Store
  | 0, s, _, _ => s
  | fuel + 1, s, morph, delta =>
    let node := (findNode s morph).getD ⟨0, "", ""⟩
    let new_count := (node.count : Int) + delta
    let s1 := if new_count = 0 then eraseNode s morph
              else setNode s morph ⟨new_count.toNat, node.left_child, node.right_child⟩
    if node.left_child = "" then s1
    else adjustMorphCount fuel (adjustMorphCount fuel s1 node.left_child delta)
           node.right_child delta

/-- One iteration of the split-trial loop of `Segmentation::ResplitNode`
(`segmentation.cc:207-225`): add the two halves to the model, compare
the resulting overall cost with the best so far (strict `<`), and undo
the two additions; the state carries the evolving store together with
`(best_cost, best_split_index)`. -/
def resplitStep {C : Type} [LinearOrderedField C] (cost : Store → C) (af : Nat)
    (morph : String) (frequency : Nat) (st : Store × (C × Nat)) (k : Nat) :
    Store × (C × Nat) :=
  let lc := strTake morph k
  let rc := strDrop morph k
  let sA := adjustMorphCount af (adjustMorphCount af st.1 lc (frequency : Int)) rc
    (frequency : Int)
  let best := if cost sA < st.2.1 then (cost sA, k) else st.2
  let sB := adjustMorphCount af (adjustMorphCount af sA lc (-(frequency : Int))) rc
    (-(frequency : Int))
  (sB, best)

/-- The whole split-trial loop (`split_index = 1 … morph.size() - 1`),
started from the removed state `s3` with the recalculated unsplit cost
`c0` as the `k = 0` baseline. -/
def resplitTrials {C : Type} [LinearOrderedField C] (cost : Store → C) (af : Nat)
    (s3 : Store) (morph : String) (frequency : Nat) (c0 : C) : Store × (C × Nat) :=
  (List.range' 1 (morph.length - 1)).foldl (resplitStep cost af morph frequency)
    (s3, (c0, 0))

/-- `segmentation.cc:189-191`: the morph's current representation is
flattened out of the model (`AdjustMorphCount(morph, -frequency)`)
when present. -/
def resplitFlattened (af : Nat) (s : Store) (morph : String) : Store :=
  if containsKey s morph then adjustMorphCount af s morph (-(getCount s morph : Int))
  else s

/-- `segmentation.cc:194`: the morph re-added unsplit; the cost of this
store is the `k = 0` baseline `best_cost`. -/
def resplitUnsplit (af : Nat) (s : Store) (morph : String) : Store :=
  adjustMorphCount af (resplitFlattened af s morph) morph (getCount s morph : Int)

/-- `segmentation.cc:205`: the morph removed again before the split
trials. -/
def resplitRemoved (af : Nat) (s : Store) (morph : String) : Store :=
  adjustMorphCount af (resplitUnsplit af s morph) morph (-(getCount s morph : Int))

/-- `Segmentation::ResplitNode` (`segmentation.cc:177-243`): remember
the frequency, flatten the current representation, re-add the morph
unsplit and record that cost as the `k = 0` baseline, remove it again,
try every split index, then either commit the best split (re-adding
the parent as an internal node, pushing the frequency into the halves
and resplitting them recursively) or re-add the morph unsplit.  The
overall cost is the parameter `cost`, evaluated on the store per spec
invariant 7 (the `Model` class is not among the sources); `af` is the
`AdjustMorphCount` fuel and the last argument bounds the recursive
resplits. -/
def resplitNode {C : Type} [LinearOrderedField C] (cost : Store → C) (af : Nat) :
    Nat → Store → String → Store
  | 0, s, _ => s
  | fuel + 1, s, morph =>
    let frequency := getCount s morph
    let tr := resplitTrials cost af (resplitRemoved af s morph) morph frequency
      (cost (resplitUnsplit af s morph))
    if 0 < tr.2.2 then
      let lc := strTake morph tr.2.2
      let rc := strDrop morph tr.2.2
      let s5 := setNode tr.1 morph ⟨frequency, lc, rc⟩
      let s6 := adjustMorphCount af (adjustMorphCount af s5 lc (frequency : Int)) rc
        (frequency : Int)
      resplitNode cost af fuel (resplitNode cost af fuel s6 lc) rc
    else
      adjustMorphCount af tr.1 morph (frequency : Int)

/-- Modelled from the spec (4.C): the corpus cost
`Σ over leaves of count · (log2 total_morph_tokens − log2 count)`. -/
noncomputable def corpusCostR (s : Store) : Real :=
  ((leafList s).map (fun p =>
    (p.2.count : Real) * (Real.logb 2 (leafTokenSum s) - Real.logb 2 p.2.count))).sum

/-- Modelled from the spec (4.C): the explicit frequency cost with
hapax-legomena prior `p`: per leaf of count `c` the contribution is
`-log2(c^e - (c+1)^e)` with `e = log2(1 - p)`. -/
noncomputable def freqCostR (p : Real) (s : Store) : Real :=
  ((leafList s).map (fun q =>
    -(Real.logb 2 ((q.2.count : Real) ^ Real.logb 2 (1 - p) -
      ((q.2.count : Real) + 1) ^ Real.logb 2 (1 - p))))).sum

/-- Modelled from the spec (4.C): the implicit length cost: per leaf
the end-marker cost `cost(#)` from the letter table of the epoch-start
store `s0` (the table is rebuilt only when the optimizer begins, spec
4.B, so it is a parameter here). -/
noncomputable def lengthCostImplicitR (s0 s : Store) : Real :=
  ((leafList s).map (fun _ => endMarkerCostR s0 true)).sum

/-- Modelled from the spec (4.C): the string cost: per leaf the sum of
the letter-table costs of its characters, the table built in
end-marker mode from the epoch-start store `s0`. -/
noncomputable def stringCostR (s0 s : Store) : Real :=
  ((leafList s).map (fun p => (p.1.data.map (letterCostR s0 true)).sum)).sum

/-- Modelled from the spec (4.C): the lexicon-ordering adjustment
`U·(1 - ln U)/ln 2`. -/
noncomputable def orderingCostR (s : Store) : Real :=
  (numLeaves s : Real) * (1 - Real.log (numLeaves s)) / Real.log 2

/-- Modelled from the spec (4.C): `overall_cost` in `BaselineFreq` mode
(explicit frequency, implicit length, string term with end-marker):
the lexicon subterms plus the corpus cost, with the letter table fixed
from the epoch-start store `s0`. -/
noncomputable def overallCostBF (p : Real) (s0 s : Store) : Real :=
  corpusCostR s + freqCostR p s + lengthCostImplicitR s0 s + stringCostR s0 s +
    orderingCostR s

/-- The C5 counterexample store: leaves `a@9, b@513, c@9, aaa@64,
bbb@64, ccc@64`, plus the internal nodes `bc@1 = b + c` and
`abc@1 = a + bc` recording the current segmentation of `abc`. -/
def c5Store : Store :=
  [("a", ⟨9, "", ""⟩), ("b", ⟨513, "", ""⟩), ("c", ⟨9, "", ""⟩),
   ("aaa", ⟨64, "", ""⟩), ("bbb", ⟨64, "", ""⟩), ("ccc", ⟨64, "", ""⟩),
   ("bc", ⟨1, "b", "c"⟩), ("abc", ⟨1, "a", "bc"⟩)]

/-- `c5Store` with the segmentation of `abc` flattened out
(`AdjustMorphCount("abc", -1)`). -/
def c5Base : Store :=
  [("a", ⟨8, "", ""⟩), ("b", ⟨512, "", ""⟩), ("c", ⟨8, "", ""⟩),
   ("aaa", ⟨64, "", ""⟩), ("bbb", ⟨64, "", ""⟩), ("ccc", ⟨64, "", ""⟩)]

/-- `c5Base` plus `abc` re-added as an unsplit leaf: the state whose
cost is the `k = 0` baseline, and the state `ResplitNode("abc")`
leaves behind when no split improves on it. -/
def c5Unsplit : Store :=
  [("a", ⟨8, "", ""⟩), ("b", ⟨512, "", ""⟩), ("c", ⟨8, "", ""⟩),
   ("aaa", ⟨64, "", ""⟩), ("bbb", ⟨64, "", ""⟩), ("ccc", ⟨64, "", ""⟩),
   ("abc", ⟨1, "", ""⟩)]

/-- The `k = 1` trial state: `c5Base` with `a` increased and the new
leaf `bc`. -/
def c5Trial1 : Store :=
  [("a", ⟨9, "", ""⟩), ("b", ⟨512, "", ""⟩), ("c", ⟨8, "", ""⟩),
   ("aaa", ⟨64, "", ""⟩), ("bbb", ⟨64, "", ""⟩), ("ccc", ⟨64, "", ""⟩),
   ("bc", ⟨1, "", ""⟩)]

/-- The `k = 2` trial state: `c5Base` with `c` increased and the new
leaf `ab`. -/
def c5Trial2 : Store :=
  [("a", ⟨8, "", ""⟩), ("b", ⟨512, "", ""⟩), ("c", ⟨9, "", ""⟩),
   ("aaa", ⟨64, "", ""⟩), ("bbb", ⟨64, "", ""⟩), ("ccc", ⟨64, "", ""⟩),
   ("ab", ⟨1, "", ""⟩)]

end Morfessor

namespace Morfessor

/-- **C1**: starting from an empty `SegmentationTree`, after
`emplace("reopening",1)`, `emplace("retry",2)`, `emplace("trying",4)`
followed by `Split("reopening",2)`, `Split("opening",4)`,
`Split("retry",2)`, `Split("trying",3)`, the stored counts are
`count("re") = 3`, `count("ing") = 5`, `count("open") = 1`,
`count("try") = 6`: shared sub-morph counts accumulate across words
through the recursive count propagation. -/
theorem c1_shared_submorph_counts :
    (let t := splitTree 16 (splitTree 16 (splitTree 16 (splitTree 16
        (emplaceTree (emplaceTree (emplaceTree emptyTree "reopening" 1) "retry" 2) "trying" 4)
        "reopening" 2) "opening" 4) "retry" 2) "trying" 3
     getCount t.nodes "re" = 3 ∧ getCount t.nodes "ing" = 5 ∧
     getCount t.nodes "open" = 1 ∧ getCount t.nodes "try" = 6) := by
  decide

/-- **C2** (code bug): the public mutation sequence `emplace("aa",1)`;
`Split("aa",1)` leaves the store with exactly one leaf (`"a"`, count 2)
while `unique_morph_types_` has been driven to `0`: the equality test in
`Split` fails to detect a new type when the two halves are the same
string, so the invariant `unique_morph_types == #leaves` required by the
spec (and by the `assert(unique_morphs == unique_morph_types_)` inside
`LetterProbabilities`) is broken.  The token-sum invariant still holds
(`total_morph_tokens = 2 = Σ leaf counts`). -/
theorem c2_split_equal_halves_breaks_unique_invariant :
    (let t := splitTree 4 (emplaceTree emptyTree "aa" 1) "aa" 1
     t.unique_morph_types = 0 ∧ numLeaves t.nodes = 1 ∧
     t.unique_morph_types ≠ (numLeaves t.nodes : Int) ∧
     leafTokenSum t.nodes = 2 ∧ t.total_morph_tokens = 2) := by
  decide

/-! ### Store and count-propagation lemmas -/

theorem findNode_setNode (s : Store) (k : String) (n : MorphNode) (x : String) :
    findNode (setNode s k n) x = if x = k then some n else findNode s x := by
  induction s with
  | nil =>
    by_cases hx : x = k
    · subst hx
      simp [setNode, findNode]
    · have hkx : ¬ k = x := fun h => hx h.symm
      simp [setNode, findNode, hx, hkx]
  | cons p s ih =>
    by_cases hp : p.1 = k
    · rw [setNode, if_pos hp]
      by_cases hx : x = k
      · subst hx
        simp [findNode]
      · have hkx : ¬ k = x := fun h => hx h.symm
        have hpx : ¬ p.1 = x := by rw [hp]; exact hkx
        rw [findNode, if_neg hkx, if_neg hx, findNode, if_neg hpx]
    · rw [setNode, if_neg hp]
      by_cases hpx : p.1 = x
      · have hx : ¬ x = k := by rw [← hpx]; exact fun h => hp h
        rw [findNode, if_pos hpx, if_neg hx, findNode, if_pos hpx]
      · rw [findNode, if_neg hpx, ih]
        by_cases hx : x = k
        · rw [if_pos hx, if_pos hx]
        · rw [if_neg hx, if_neg hx, findNode, if_neg hpx]

theorem mem_of_findNode {s : Store} {k : String} {n : MorphNode}
    (h : findNode s k = some n) : (k, n) ∈ s := by
  induction s with
  | nil => simp [findNode] at h
  | cons p s ih =>
    rw [findNode] at h
    by_cases hp : p.1 = k
    · rw [if_pos hp] at h
      have hn : p.2 = n := by
        injection h
      have : p = (k, n) := by
        cases p
        simp at hp hn
        simp [hp, hn]
      exact this ▸ List.mem_cons_self p s
    · rw [if_neg hp] at h
      exact List.mem_cons_of_mem _ (ih h)

theorem findNode_eq_none_of_not_contains {s : Store} {k : String}
    (h : ¬ containsKey s k = true) : findNode s k = none := by
  unfold containsKey at h
  cases hf : findNode s k
  · rfl
  · rw [hf] at h
    simp at h

theorem getLinks_incInsert (t : SegTree) (key x : String) :
    getLinks (incInsert t key).nodes x = getLinks t.nodes x := by
  unfold incInsert
  by_cases hc : containsKey t.nodes key = true
  · rw [if_pos hc]
  · rw [if_neg hc]
    show getLinks (setNode t.nodes key ⟨0, "", ""⟩) x = getLinks t.nodes x
    unfold getLinks
    rw [findNode_setNode]
    by_cases hx : x = key
    · rw [if_pos hx, hx, findNode_eq_none_of_not_contains hc]
      rfl
    · rw [if_neg hx]

theorem getCount_incInsert (t : SegTree) (key x : String) :
    getCount (incInsert t key).nodes x = getCount t.nodes x := by
  unfold incInsert
  by_cases hc : containsKey t.nodes key = true
  · rw [if_pos hc]
  · rw [if_neg hc]
    show getCount (setNode t.nodes key ⟨0, "", ""⟩) x = getCount t.nodes x
    unfold getCount
    rw [findNode_setNode]
    by_cases hx : x = key
    · rw [if_pos hx, hx, findNode_eq_none_of_not_contains hc]
      rfl
    · rw [if_neg hx]

theorem getLinks_incBump (t : SegTree) (key : String) (inc : Nat) (x : String) :
    getLinks (incBump t key inc).nodes x = getLinks t.nodes x := by
  unfold incBump
  have hnodes : (incBump t key inc).nodes =
      setNode t.nodes key
        ⟨((findNode t.nodes key).getD ⟨0, "", ""⟩).count + inc,
         ((findNode t.nodes key).getD ⟨0, "", ""⟩).left_child,
         ((findNode t.nodes key).getD ⟨0, "", ""⟩).right_child⟩ := by
    unfold incBump
    by_cases h : ((findNode t.nodes key).getD ⟨0, "", ""⟩).left_child = "" ∨
        ((findNode t.nodes key).getD ⟨0, "", ""⟩).right_child = ""
    · simp only [h, if_pos]
    · simp only [h, if_neg, not_false_iff]
  show getLinks (incBump t key inc).nodes x = getLinks t.nodes x
  rw [hnodes]
  unfold getLinks
  rw [findNode_setNode]
  by_cases hx : x = key
  · rw [if_pos hx, hx]
    cases hf : findNode t.nodes key <;> simp [hf, Option.getD]
  · rw [if_neg hx]

theorem getCount_incBump (t : SegTree) (key : String) (inc : Nat) (x : String) :
    getCount (incBump t key inc).nodes x =
      getCount t.nodes x + (if key = x then inc else 0) := by
  have hnodes : (incBump t key inc).nodes =
      setNode t.nodes key
        ⟨((findNode t.nodes key).getD ⟨0, "", ""⟩).count + inc,
         ((findNode t.nodes key).getD ⟨0, "", ""⟩).left_child,
         ((findNode t.nodes key).getD ⟨0, "", ""⟩).right_child⟩ := by
    unfold incBump
    by_cases h : ((findNode t.nodes key).getD ⟨0, "", ""⟩).left_child = "" ∨
        ((findNode t.nodes key).getD ⟨0, "", ""⟩).right_child = ""
    · simp only [h, if_pos]
    · simp only [h, if_neg, not_false_iff]
  rw [hnodes]
  unfold getCount
  rw [findNode_setNode]
  by_cases hx : x = key
  · rw [if_pos hx, hx, if_pos rfl]
    cases hf : findNode t.nodes key <;> simp [hf, Option.getD]
  · have hkx : ¬ key = x := fun h => hx h.symm
    rw [if_neg hx, if_neg hkx]
    simp

theorem pathCount_congr : ∀ (fuel : Nat) (s sp : Store) (k x : String),
    (∀ y, getLinks s y = getLinks sp y) →
    pathCount fuel s k x = pathCount fuel sp k x := by
  intro fuel
  induction fuel with
  | zero => intro s sp k x _; rfl
  | succ fuel ih =>
    intro s sp k x h
    rw [pathCount, pathCount, h k]
    by_cases h1 : (getLinks sp k).1 = "" <;>
      by_cases h2 : (getLinks sp k).2 = "" <;>
        simp [h1, h2, ih s sp _ x h]

theorem getLinks_increaseNodeCount : ∀ (fuel : Nat) (t : SegTree) (key : String)
    (inc : Nat) (x : String),
    getLinks (increaseNodeCount fuel t key inc).nodes x = getLinks t.nodes x := by
  intro fuel
  induction fuel with
  | zero => intro t key inc x; rfl
  | succ fuel ih =>
    intro t key inc x
    rw [increaseNodeCount, getLinks_incBump]
    by_cases h1 : (getLinks (incInsert t key).nodes key).1 = ""
    · rw [if_pos h1]
      by_cases h2 : (getLinks (incInsert t key).nodes key).2 = ""
      · rw [if_pos h2, getLinks_incInsert]
      · rw [if_neg h2, ih, getLinks_incInsert]
    · rw [if_neg h1]
      by_cases h2 : (getLinks (increaseNodeCount fuel (incInsert t key)
          (getLinks (incInsert t key).nodes key).1 inc).nodes key).2 = ""
      · rw [if_pos h2, ih, getLinks_incInsert]
      · rw [if_neg h2, ih, ih, getLinks_incInsert]

theorem getCount_increaseNodeCount : ∀ (fuel : Nat) (t : SegTree) (key : String)
    (inc : Nat) (x : String),
    getCount (increaseNodeCount fuel t key inc).nodes x =
      getCount t.nodes x + inc * pathCount fuel t.nodes key x := by
  intro fuel
  induction fuel with
  | zero => intro t key inc x; rw [pathCount]; rfl
  | succ fuel ih =>
    intro t key inc x
    rw [increaseNodeCount, getCount_incBump, pathCount]
    have hIns : ∀ y, getLinks (incInsert t key).nodes y = getLinks t.nodes y :=
      getLinks_incInsert t key
    by_cases h1 : (getLinks (incInsert t key).nodes key).1 = ""
    · rw [if_pos h1]
      have h1t : (getLinks t.nodes key).1 = "" := by rw [← hIns key]; exact h1
      by_cases h2 : (getLinks (incInsert t key).nodes key).2 = ""
      · have h2t : (getLinks t.nodes key).2 = "" := by rw [← hIns key]; exact h2
        rw [if_pos h2, getCount_incInsert, if_pos h1t, if_pos h2t]
        by_cases hkx : key = x
        · rw [if_pos hkx, if_pos hkx]; ring
        · rw [if_neg hkx, if_neg hkx]; ring
      · have h2t : ¬ (getLinks t.nodes key).2 = "" := fun hh => h2 (by rw [hIns key]; exact hh)
        rw [if_neg h2, ih, getCount_incInsert, if_pos h1t, if_neg h2t]
        rw [pathCount_congr fuel (incInsert t key).nodes t.nodes _ x hIns, hIns key]
        by_cases hkx : key = x
        · rw [if_pos hkx, if_pos hkx]; ring
        · rw [if_neg hkx, if_neg hkx]; ring
    · rw [if_neg h1]
      have h1t : ¬ (getLinks t.nodes key).1 = "" := fun hh => h1 (by rw [hIns key]; exact hh)
      have hT1 : ∀ y, getLinks (increaseNodeCount fuel (incInsert t key)
          (getLinks (incInsert t key).nodes key).1 inc).nodes y = getLinks t.nodes y := by
        intro y
        rw [getLinks_increaseNodeCount, hIns]
      by_cases h2 : (getLinks (increaseNodeCount fuel (incInsert t key)
          (getLinks (incInsert t key).nodes key).1 inc).nodes key).2 = ""
      · have h2t : (getLinks t.nodes key).2 = "" := by rw [← hT1 key]; exact h2
        rw [if_pos h2, ih, getCount_incInsert, if_neg h1t, if_pos h2t]
        rw [pathCount_congr fuel (incInsert t key).nodes t.nodes _ x hIns, hIns key]
        by_cases hkx : key = x
        · rw [if_pos hkx, if_pos hkx]; ring
        · rw [if_neg hkx, if_neg hkx]; ring
      · have h2t : ¬ (getLinks t.nodes key).2 = "" := fun hh => h2 (by rw [hT1 key]; exact hh)
        rw [if_neg h2, ih, ih, getCount_incInsert, if_neg h1t, if_neg h2t]
        rw [pathCount_congr fuel (increaseNodeCount fuel (incInsert t key)
          (getLinks (incInsert t key).nodes key).1 inc).nodes t.nodes _ x hT1]
        rw [pathCount_congr fuel (incInsert t key).nodes t.nodes _ x hIns]
        rw [hT1 key, hIns key]
        by_cases hkx : key = x
        · rw [if_pos hkx, if_pos hkx]; ring
        · rw [if_neg hkx, if_neg hkx]; ring

theorem unique_incInsert (t : SegTree) (key : String) :
    (incInsert t key).unique_morph_types = t.unique_morph_types := by
  unfold incInsert
  by_cases hc : containsKey t.nodes key = true
  · rw [if_pos hc]
  · rw [if_neg hc]

theorem unique_incBump (t : SegTree) (key : String) (inc : Nat) :
    (incBump t key inc).unique_morph_types = t.unique_morph_types := by
  unfold incBump
  by_cases h : ((findNode t.nodes key).getD ⟨0, "", ""⟩).left_child = "" ∨
      ((findNode t.nodes key).getD ⟨0, "", ""⟩).right_child = ""
  · simp only [h, if_pos]
  · simp only [h, if_neg, not_false_iff]

theorem unique_increaseNodeCount : ∀ (fuel : Nat) (t : SegTree) (key : String) (inc : Nat),
    (increaseNodeCount fuel t key inc).unique_morph_types = t.unique_morph_types := by
  intro fuel
  induction fuel with
  | zero => intro t key inc; rfl
  | succ fuel ih =>
    intro t key inc
    rw [increaseNodeCount, unique_incBump]
    by_cases h1 : (getLinks (incInsert t key).nodes key).1 = ""
    · rw [if_pos h1]
      by_cases h2 : (getLinks (incInsert t key).nodes key).2 = ""
      · rw [if_pos h2, unique_incInsert]
      · rw [if_neg h2, ih, unique_incInsert]
    · rw [if_neg h1]
      by_cases h2 : (getLinks (increaseNodeCount fuel (incInsert t key)
          (getLinks (incInsert t key).nodes key).1 inc).nodes key).2 = ""
      · rw [if_pos h2, ih, unique_incInsert]
      · rw [if_neg h2, ih, ih, unique_incInsert]

theorem pathCount_eq_zero_of_lt {B : Nat} : ∀ (fuel : Nat) (s : Store) (k x : String),
    WFbelow s B → k.length < B → k.length < x.length → pathCount fuel s k x = 0 := by
  intro fuel
  induction fuel with
  | zero => intro s k x _ _ _; rfl
  | succ fuel ih =>
    intro s k x hwf hkB hkx
    rw [pathCount]
    have hne : ¬ k = x := by
      intro h
      rw [h] at hkx
      exact Nat.lt_irrefl _ hkx
    rw [if_neg hne]
    cases hf : findNode s k with
    | none =>
      have hlk : getLinks s k = ("", "") := by unfold getLinks; rw [hf]; rfl
      rw [hlk]
      simp
    | some n =>
      have hmem : (k, n) ∈ s := mem_of_findNode hf
      have hlinks : getLinks s k = (n.left_child, n.right_child) := by
        unfold getLinks; rw [hf]; rfl
      rw [hlinks]
      by_cases hl : n.left_child = ""
      · have hr : n.right_child = "" := (hwf (k, n) hmem hkB).2.1 hl
        rw [if_pos hl, if_pos hr]
      · obtain ⟨hlp, hrp, hll, hrl⟩ := (hwf (k, n) hmem hkB).2.2 hl
        rw [if_neg hl, ih s n.left_child x hwf (lt_trans hll hkB) (lt_trans hll hkx)]
        by_cases hr : n.right_child = ""
        · rw [if_pos hr]
        · rw [if_neg hr, ih s n.right_child x hwf (lt_trans hrl hkB) (lt_trans hrl hkx)]

theorem pathCount_self {B : Nat} (fuel : Nat) (s : Store) (k : String)
    (hwf : WFbelow s B) (hk : k.length < B) :
    pathCount (fuel + 1) s k k = 1 := by
  rw [pathCount, if_pos rfl]
  cases hf : findNode s k with
  | none =>
    have hlk : getLinks s k = ("", "") := by unfold getLinks; rw [hf]; rfl
    rw [hlk]
    simp
  | some n =>
    have hmem : (k, n) ∈ s := mem_of_findNode hf
    have hlinks : getLinks s k = (n.left_child, n.right_child) := by
      unfold getLinks; rw [hf]; rfl
    rw [hlinks]
    by_cases hl : n.left_child = ""
    · have hr : n.right_child = "" := (hwf (k, n) hmem hk).2.1 hl
      rw [if_pos hl, if_pos hr]
    · obtain ⟨hlp, hrp, hll, hrl⟩ := (hwf (k, n) hmem hk).2.2 hl
      rw [if_neg hl, pathCount_eq_zero_of_lt fuel s n.left_child k hwf (lt_trans hll hk) hll]
      by_cases hr : n.right_child = ""
      · rw [if_pos hr]
      · rw [if_neg hr, pathCount_eq_zero_of_lt fuel s n.right_child k hwf (lt_trans hrl hk) hrl]

theorem pathCount_eq_zero_of_absent {B : Nat} : ∀ (fuel : Nat) (s : Store) (k x : String),
    WFbelow s B → k.length < B → findNode s x = none → ¬ k = x →
    pathCount fuel s k x = 0 := by
  intro fuel
  induction fuel with
  | zero => intro s k x _ _ _ _; rfl
  | succ fuel ih =>
    intro s k x hwf hkB hx hne
    rw [pathCount, if_neg hne]
    cases hf : findNode s k with
    | none =>
      have hlk : getLinks s k = ("", "") := by unfold getLinks; rw [hf]; rfl
      rw [hlk]
      simp
    | some n =>
      have hmem : (k, n) ∈ s := mem_of_findNode hf
      have hlinks : getLinks s k = (n.left_child, n.right_child) := by
        unfold getLinks; rw [hf]; rfl
      rw [hlinks]
      by_cases hl : n.left_child = ""
      · have hr : n.right_child = "" := (hwf (k, n) hmem hkB).2.1 hl
        rw [if_pos hl, if_pos hr]
      · obtain ⟨hlp, hrp, hll, hrl⟩ := (hwf (k, n) hmem hkB).2.2 hl
        have hlx : ¬ n.left_child = x := by
          intro h
          rw [h, hx] at hlp
          simp at hlp
        rw [if_neg hl, ih s n.left_child x hwf (lt_trans hll hkB) hx hlx]
        by_cases hr : n.right_child = ""
        · rw [if_pos hr]
        · have hrx : ¬ n.right_child = x := by
            intro h
            rw [h, hx] at hrp
            simp at hrp
          rw [if_neg hr, ih s n.right_child x hwf (lt_trans hrl hkB) hx hrx]

theorem pathCount_increaseNodeCount (fuel fuel2 : Nat) (t : SegTree) (key : String)
    (inc : Nat) (a x : String) :
    pathCount fuel (increaseNodeCount fuel2 t key inc).nodes a x =
      pathCount fuel t.nodes a x :=
  pathCount_congr fuel _ _ a x (fun y => getLinks_increaseNodeCount fuel2 t key inc y)

theorem mem_setNode {s : Store} {k : String} {n : MorphNode} {p : String × MorphNode}
    (h : p ∈ setNode s k n) : p = (k, n) ∨ p ∈ s := by
  induction s with
  | nil =>
    rw [setNode] at h
    exact Or.inl (List.eq_of_mem_singleton h)
  | cons q s ih =>
    rw [setNode] at h
    by_cases hq : q.1 = k
    · rw [if_pos hq] at h
      rcases List.mem_cons.mp h with h | h
      · exact Or.inl h
      · exact Or.inr (List.mem_cons_of_mem _ h)
    · rw [if_neg hq] at h
      rcases List.mem_cons.mp h with h | h
      · exact Or.inr (h ▸ List.mem_cons_self q s)
      · rcases ih h with h | h
        · exact Or.inl h
        · exact Or.inr (List.mem_cons_of_mem _ h)

theorem isSome_findNode_setNode (s : Store) (k : String) (n : MorphNode) (y : String)
    (h : (findNode s y).isSome = true) : (findNode (setNode s k n) y).isSome = true := by
  rw [findNode_setNode]
  by_cases hy : y = k
  · rw [if_pos hy]; rfl
  · rw [if_neg hy]; exact h

theorem WFbelow_setNode {s : Store} {B : Nat} {k : String} {n : MorphNode}
    (hwf : WFbelow s B) (hk : B ≤ k.length) : WFbelow (setNode s k n) B := by
  intro p hp hlen
  rcases mem_setNode hp with h | h
  · exfalso
    rw [h] at hlen
    exact absurd hlen (not_lt.mpr hk)
  · obtain ⟨h1, h2, h3⟩ := hwf p h hlen
    refine ⟨h1, h2, ?_⟩
    intro hl
    obtain ⟨ha, hb, hc, hd⟩ := h3 hl
    exact ⟨isSome_findNode_setNode _ _ _ _ ha, isSome_findNode_setNode _ _ _ _ hb, hc, hd⟩

theorem string_length_data (m : String) : m.length = m.data.length := by
  cases m
  rfl

theorem length_strTake (m : String) (k : Nat) : (strTake m k).length = min k m.length := by
  unfold strTake
  rw [String.length_mk, List.length_take, string_length_data]

theorem length_strDrop (m : String) (k : Nat) : (strDrop m k).length = m.length - k := by
  unfold strDrop
  rw [String.length_mk, List.length_drop, string_length_data]

theorem splitTree_unique_expand (fuel : Nat) (t : SegTree) (morph : String) (kk : Nat) :
    (splitTree fuel t morph kk).unique_morph_types =
      (let T0 : SegTree := { t with
          nodes := setNode t.nodes morph
            ⟨getCount t.nodes morph, strTake morph kk, strDrop morph kk⟩
          total_morph_tokens := t.total_morph_tokens - (getCount t.nodes morph : Int) }
       let T1 := increaseNodeCount fuel T0 (strTake morph kk) (getCount T0.nodes morph)
       let T2 := increaseNodeCount fuel T1 (strDrop morph kk) (getCount T1.nodes morph)
       T2.unique_morph_types - 1
       + (if getCount T2.nodes (strTake morph kk) = getCount T2.nodes morph then 1 else 0)
       + (if getCount T2.nodes (strDrop morph kk) = getCount T2.nodes morph then 1 else 0)) :=
  rfl

/-- **C3 (amended)**: on a store satisfying the documented invariants,
splitting a present leaf morph of count `c > 0` at `0 < k < len(morph)`
changes `unique_morph_types` by exactly `-1` plus one for each half
whose pre-existing count was zero — provided the two halves are
distinct strings; when the two halves are the same string the change is
exactly `-1` whether or not the half is new. -/
theorem c3_amended_split_unique_delta
    (t : SegTree) (morph : String) (k fl c : Nat)
    (hwf : WFbelow t.nodes morph.length)
    (hm : findNode t.nodes morph = some ⟨c, "", ""⟩)
    (hc : 0 < c)
    (hk0 : 0 < k) (hklt : k < morph.length) :
    (splitTree (fl + 1) t morph k).unique_morph_types =
      t.unique_morph_types - 1
      + (if strTake morph k = strDrop morph k then 0
         else (if containsKey t.nodes (strTake morph k) = true then 0 else 1)
            + (if containsKey t.nodes (strDrop morph k) = true then 0 else 1)) := by
  have hlL : (strTake morph k).length = k := by
    rw [length_strTake]
    exact Nat.min_eq_left (Nat.le_of_lt hklt)
  have hlB : (strTake morph k).length < morph.length := by
    rw [hlL]
    exact hklt
  have hrB : (strDrop morph k).length < morph.length := by
    rw [length_strDrop]
    omega
  have hlnm : ¬ strTake morph k = morph := by
    intro h
    rw [h] at hlB
    exact Nat.lt_irrefl _ hlB
  have hrnm : ¬ strDrop morph k = morph := by
    intro h
    rw [h] at hrB
    exact Nat.lt_irrefl _ hrB
  have hc0 : getCount t.nodes morph = c := by
    unfold getCount
    rw [hm]
    rfl
  simp only [splitTree_unique_expand]
  rw [hc0]
  set L := strTake morph k with hL
  set R := strDrop morph k with hR
  set S0 : Store := setNode t.nodes morph ⟨c, L, R⟩ with hS0
  have hwf0 : WFbelow S0 morph.length := WFbelow_setNode hwf (le_refl _)
  have hS0m : getCount S0 morph = c := by
    rw [hS0]
    unfold getCount
    rw [findNode_setNode, if_pos rfl]
    rfl
  have hS0l : getCount S0 L = getCount t.nodes L := by
    rw [hS0]
    unfold getCount
    rw [findNode_setNode, if_neg hlnm]
  have hS0r : getCount S0 R = getCount t.nodes R := by
    rw [hS0]
    unfold getCount
    rw [findNode_setNode, if_neg hrnm]
  have hPLm : pathCount (fl + 1) S0 L morph = 0 :=
    pathCount_eq_zero_of_lt (fl + 1) S0 L morph hwf0 hlB hlB
  have hPRm : pathCount (fl + 1) S0 R morph = 0 :=
    pathCount_eq_zero_of_lt (fl + 1) S0 R morph hwf0 hrB hrB
  have hPLL : pathCount (fl + 1) S0 L L = 1 := pathCount_self fl S0 L hwf0 hlB
  have hPRR : pathCount (fl + 1) S0 R R = 1 := pathCount_self fl S0 R hwf0 hrB
  simp only [unique_increaseNodeCount, getCount_increaseNodeCount,
    pathCount_increaseNodeCount]
  rw [hS0m, hS0l, hS0r, hPLm, hPRm, hPLL, hPRR]
  simp only [Nat.mul_zero, Nat.mul_one, Nat.add_zero]
  by_cases hEq : L = R
  · rw [if_pos hEq, ← hEq, hPLL]
    simp only [Nat.mul_one]
    have hcond : ¬ (getCount t.nodes L + c + c = c) := by omega
    rw [if_neg hcond]
    omega
  · rw [if_neg hEq]
    have hEq2 : ¬ R = L := fun h => hEq h.symm
    have hiteL : (if getCount t.nodes L + c + c * pathCount (fl + 1) S0 R L = c
          then (1 : Int) else 0)
        = (if containsKey t.nodes L = true then 0 else 1) := by
      cases hfindL : findNode t.nodes L with
      | none =>
        have hgl : getCount t.nodes L = 0 := by
          unfold getCount
          rw [hfindL]
          rfl
        have habs : findNode S0 L = none := by
          rw [hS0, findNode_setNode, if_neg hlnm, hfindL]
        have hP : pathCount (fl + 1) S0 R L = 0 :=
          pathCount_eq_zero_of_absent (fl + 1) S0 R L hwf0 hrB habs hEq2
        have hck : ¬ containsKey t.nodes L = true := by
          unfold containsKey
          rw [hfindL]
          simp
        rw [hgl, hP, if_neg hck, if_pos (show 0 + c + c * 0 = c by ring)]
      | some nl =>
        have hmeml : (L, nl) ∈ t.nodes := mem_of_findNode hfindL
        have hpos : 0 < nl.count := (hwf (L, nl) hmeml hlB).1
        have hgl : getCount t.nodes L = nl.count := by
          unfold getCount
          rw [hfindL]
          rfl
        have hck : containsKey t.nodes L = true := by
          unfold containsKey
          rw [hfindL]
          rfl
        rw [hgl, if_pos hck, if_neg (by omega)]
    have hiteR : (if getCount t.nodes R + c * pathCount (fl + 1) S0 L R + c = c
          then (1 : Int) else 0)
        = (if containsKey t.nodes R = true then 0 else 1) := by
      cases hfindR : findNode t.nodes R with
      | none =>
        have hgr : getCount t.nodes R = 0 := by
          unfold getCount
          rw [hfindR]
          rfl
        have habs : findNode S0 R = none := by
          rw [hS0, findNode_setNode, if_neg hrnm, hfindR]
        have hP : pathCount (fl + 1) S0 L R = 0 :=
          pathCount_eq_zero_of_absent (fl + 1) S0 L R hwf0 hlB habs hEq
        have hck : ¬ containsKey t.nodes R = true := by
          unfold containsKey
          rw [hfindR]
          simp
        rw [hgr, hP, if_neg hck, if_pos (show 0 + c * 0 + c = c by ring)]
      | some nr =>
        have hmemr : (R, nr) ∈ t.nodes := mem_of_findNode hfindR
        have hpos : 0 < nr.count := (hwf (R, nr) hmemr hrB).1
        have hgr : getCount t.nodes R = nr.count := by
          unfold getCount
          rw [hfindR]
          rfl
        have hck : containsKey t.nodes R = true := by
          unfold containsKey
          rw [hfindR]
          rfl
        rw [hgr, if_pos hck, if_neg (by omega)]
    rw [hiteL, hiteR]
    omega

/-- Witness for the amended C3 theorem: splitting the fresh leaf
`"ab"` (count 2) at `k = 1` with two distinct, new halves. -/
theorem c3_amended_witness :
    WFbelow (emplaceTree emptyTree "ab" 2).nodes ("ab" : String).length ∧
    findNode (emplaceTree emptyTree "ab" 2).nodes "ab" = some ⟨2, "", ""⟩ ∧
    (splitTree 1 (emplaceTree emptyTree "ab" 2) "ab" 1).unique_morph_types =
      (emplaceTree emptyTree "ab" 2).unique_morph_types - 1
      + (if strTake "ab" 1 = strDrop "ab" 1 then 0
         else (if containsKey (emplaceTree emptyTree "ab" 2).nodes (strTake "ab" 1) = true
               then 0 else 1)
            + (if containsKey (emplaceTree emptyTree "ab" 2).nodes (strDrop "ab" 1) = true
               then 0 else 1)) :=
  ⟨by decide, by decide,
    c3_amended_split_unique_delta (emplaceTree emptyTree "ab" 2) "ab" 1 0 2
      (by decide) (by decide) (by decide) (by decide) (by decide)⟩

/-- **C3** (counterexample): splitting the leaf `"aa"` (count 1) at
`k = 1` gives two halves that are the same string `"a"` with
pre-existing count `0`; the claim's formula `-1 + [left new] + [right
new]` predicts a change of `+1` to `unique_morph_types`, but the code
changes it by exactly `-1`. -/
theorem c3_counterexample_equal_halves :
    (let t := emplaceTree emptyTree "aa" 1
     getCount t.nodes "a" = 0 ∧
     strTake "aa" 1 = "a" ∧ strDrop "aa" 1 = "a" ∧
     (splitTree 4 t "aa" 1).unique_morph_types = t.unique_morph_types - 1 ∧
     (splitTree 4 t "aa" 1).unique_morph_types ≠ t.unique_morph_types - 1 + 1 + 1) := by
  decide

/-- **C8** (counterexample): emplacing two words of frequency 50 reaches
`total_morph_tokens = 100`, `unique_morph_types = 2` — inside the
claimed-guarded range `unique ≤ 2` — yet the branch taken is the
Stirling approximation (`¬ total < 100`), which passes the non-positive
value `0` (from `unique_morph_types_ - 2`) to `std::log2`. -/
theorem c8_counterexample_log2_of_zero :
    (let t := emplaceTree (emplaceTree emptyTree "ab" 50) "cd" 50
     t.total_morph_tokens = 100 ∧ t.unique_morph_types = 2 ∧
     ¬ (100 : Nat) < 100 ∧ (0 : Nat) ∈ implicitFreqLog2Args 100 2) := by
  decide

/-- **C8 (amended)**: only the small-corpus exact branch provides the
guard: whenever `total_morph_tokens < 100` (which covers
`total_morph_tokens ≤ 2`) and `1 ≤ unique ≤ total`, every value passed
to `log2` is the positive binomial coefficient `C(total-1, unique-1)`;
for `total ≥ 100` with `unique = 2` the Stirling branch evaluates
`log2 0` (see the counterexample). -/
theorem c8_amended_small_corpus_branch_guards (total unique : Nat)
    (hsmall : total < 100) (h1 : 1 ≤ unique) (h2 : unique ≤ total) :
    ∀ a ∈ implicitFreqLog2Args total unique, 0 < a := by
  intro a ha
  rw [implicitFreqLog2Args, if_pos hsmall] at ha
  have hpow : (2 : Int) ^ 64 = 18446744073709551616 := by norm_num
  have htot : sub64 total 1 = total - 1 := by
    unfold sub64
    rw [hpow, Int.emod_eq_of_lt (by omega) (by omega)]
    omega
  have hu : sub64 unique 1 = unique - 1 := by
    unfold sub64
    rw [hpow, Int.emod_eq_of_lt (by omega) (by omega)]
    omega
  rw [htot, hu] at ha
  rw [List.mem_singleton.mp ha]
  exact Nat.choose_pos (by omega)

/-- Witness for the amended C8 theorem at `total = 3`, `unique = 2`. -/
theorem c8_amended_witness :
    (3 : Nat) < 100 ∧ (1 : Nat) ≤ 2 ∧ (2 : Nat) ≤ 3 ∧
    ∀ a ∈ implicitFreqLog2Args 3 2, 0 < a :=
  ⟨by decide, by decide, by decide,
    c8_amended_small_corpus_branch_guards 3 2 (by decide) (by decide) (by decide)⟩

/-! ### Letter-probability lemmas (C7) -/

theorem finsetSum_listSum {α β : Type} [DecidableEq α] (S : Finset α) :
    ∀ (L : List β) (g : β → α → Nat),
      Finset.sum S (fun a => ((L.map (fun b => g b a)).sum)) =
        (L.map (fun b => Finset.sum S (fun a => g b a))).sum := by
  intro L
  induction L with
  | nil => intro g; simp
  | cons b L ih =>
    intro g
    simp only [List.map_cons, List.sum_cons]
    rw [Finset.sum_add_distrib, ih]

theorem sum_count_eq_length (S : Finset Char) (l : List Char)
    (h : ∀ ch ∈ l, ch ∈ S) : Finset.sum S l.count = l.length := by
  have base : Finset.sum l.toFinset l.count = l.length := by
    simp [Multiset.toFinset_sum_count_eq (l : Multiset Char)]
  rw [← base]
  refine (Finset.sum_subset ?_ ?_).symm
  · intro x hx
    exact h x (List.mem_toFinset.mp hx)
  · intro x _ hnx
    exact List.count_eq_zero_of_not_mem (fun hm => hnx (List.mem_toFinset.mpr hm))

theorem sum_letterCount (s : Store) :
    Finset.sum (letterSet s) (fun ch => letterCount s ch) = totalLetters s := by
  unfold letterCount totalLetters
  rw [finsetSum_listSum]
  congr 1
  apply List.map_congr_left
  intro p hp
  rw [← Finset.mul_sum]
  rw [string_length_data]
  congr 1
  apply sum_count_eq_length
  intro ch hch
  unfold letterSet
  rw [List.mem_toFinset]
  exact List.mem_flatten.mpr ⟨p.1.data, List.mem_map.mpr ⟨p, hp, rfl⟩, hch⟩

theorem letterCount_pos (s : Store) (hpos : ∀ p ∈ s, 0 < p.2.count)
    (ch : Char) (hch : ch ∈ letterSet s) : 0 < letterCount s ch := by
  unfold letterSet at hch
  rw [List.mem_toFinset] at hch
  obtain ⟨l, hl, hchl⟩ := List.mem_flatten.mp hch
  obtain ⟨p, hp, rfl⟩ := List.mem_map.mp hl
  have hp2 : p ∈ s := List.mem_of_mem_filter hp
  have hc : 0 < p.2.count := hpos p hp2
  have hocc : 0 < p.1.data.count ch := List.count_pos_iff.mpr hchl
  have hterm : p.2.count * p.1.data.count ch ∈
      (leafList s).map (fun q => q.2.count * q.1.data.count ch) :=
    List.mem_map.mpr ⟨p, hp, rfl⟩
  calc 0 < p.2.count * p.1.data.count ch := Nat.mul_pos hc hocc
    _ ≤ letterCount s ch :=
      List.single_le_sum (fun x _ => Nat.zero_le x) _ hterm

/-- **C7**: for the letter table returned by `LetterProbabilities`, the
stored costs satisfy `Σ over occurring characters of 2^(-cost(c)) = 1`
within tolerance `1e-9`, where the sum includes the end-of-morph marker
`'#'` exactly when end-marker mode is active.  (In exact real
arithmetic the sum is exactly `1`.) -/
theorem c7_letter_probability_law (s : Store) (b : Bool)
    (hpos : ∀ p ∈ s, 0 < p.2.count)
    (hletters : 0 < totalLetters s)
    (htok : b = true → 0 < leafTokenSum s) :
    |Finset.sum (letterSet s) (fun ch => (2 : Real) ^ (-(letterCostR s b ch)))
      + (if b = true then (2 : Real) ^ (-(endMarkerCostR s b)) else 0) - 1|
      ≤ 1 / 10 ^ 9 := by
  have hN : 0 < lettersDenom s b := by
    unfold lettersDenom
    cases b
    · simpa using hletters
    · omega
  have hNR : (0 : ℝ) < (lettersDenom s b : ℝ) := by exact_mod_cast hN
  have hkey : ∀ ch ∈ letterSet s,
      (2 : Real) ^ (-(letterCostR s b ch)) =
        (letterCount s ch : ℝ) / (lettersDenom s b : ℝ) := by
    intro ch hch
    have hc : 0 < letterCount s ch := letterCount_pos s hpos ch hch
    have hcR : (0 : ℝ) < (letterCount s ch : ℝ) := by exact_mod_cast hc
    unfold letterCostR
    rw [neg_sub, Real.rpow_sub (by norm_num : (0 : ℝ) < 2),
        Real.rpow_logb (by norm_num) (by norm_num) hcR,
        Real.rpow_logb (by norm_num) (by norm_num) hNR]
  rw [Finset.sum_congr rfl hkey, ← Finset.sum_div]
  have hsum : Finset.sum (letterSet s) (fun ch => ((letterCount s ch : ℕ) : ℝ))
      = ((totalLetters s : ℕ) : ℝ) := by
    rw [← Nat.cast_sum]
    exact_mod_cast congrArg (fun n : ℕ => (n : ℝ)) (sum_letterCount s)
  rw [hsum]
  cases b
  · rw [if_neg (by decide)]
    have hdenom : lettersDenom s false = totalLetters s := by
      unfold lettersDenom
      simp
    rw [hdenom, div_self (ne_of_gt (by exact_mod_cast hletters)), add_zero, sub_self,
      abs_zero]
    norm_num
  · have htokpos : 0 < leafTokenSum s := htok rfl
    have htR : (0 : ℝ) < (leafTokenSum s : ℝ) := by exact_mod_cast htokpos
    have hend : (2 : Real) ^ (-(endMarkerCostR s true)) =
        (leafTokenSum s : ℝ) / (lettersDenom s true : ℝ) := by
      unfold endMarkerCostR
      rw [neg_sub, Real.rpow_sub (by norm_num : (0 : ℝ) < 2),
          Real.rpow_logb (by norm_num) (by norm_num) htR,
          Real.rpow_logb (by norm_num) (by norm_num) hNR]
    rw [if_pos rfl, hend, div_add_div_same]
    have hplus : (totalLetters s : ℝ) + (leafTokenSum s : ℝ) = (lettersDenom s true : ℝ) := by
      unfold lettersDenom
      push_cast
      simp
    rw [hplus, div_self (ne_of_gt hNR), sub_self, abs_zero]
    norm_num

/-! ### Optimizer loop lemmas (C4) -/

theorem getD_irrel {α : Type} : ∀ (l : List α) (i : Nat), i < l.length →
    ∀ (d1 d2 : α), l.getD i d1 = l.getD i d2 := by
  intro l
  induction l with
  | nil =>
    intro i h
    exact absurd h (Nat.not_lt_zero i)
  | cons a l ih =>
    intro i h d1 d2
    cases i with
    | zero => rfl
    | succ j =>
      rw [List.getD_cons_succ, List.getD_cons_succ]
      exact ih j (Nat.lt_of_succ_lt_succ h) d1 d2

/-- **C4**: the optimizer's outer loop runs at least one epoch and
terminates exactly when the epoch's cost decrease satisfies
`old_cost - new_cost ≤ ε · unique_morph_types`: in any terminating run,
every epoch starts from the previous epoch's state, every non-final
epoch's decrease strictly exceeds `ε · unique` (so another epoch is
run), and the final epoch's decrease is `≤ ε · unique` (the exit
condition); the configurable threshold defaults to `0.005`. -/
theorem c4_optimize_loop_convergence {σ : Type}
    (epoch : Nat → σ → σ) (cost uniq : σ → Rat) (ε : Rat)
    (fuel i : Nat) (s : σ) (tr : List σ)
    (h : optimizeLoop epoch cost uniq ε fuel i s = some tr) :
    convergenceThresholdDefault = 5 / 1000 ∧
    tr ≠ [] ∧
    (∀ j, j + 1 < (s :: tr).length →
      (s :: tr).getD (j + 1) s = epoch (i + j) ((s :: tr).getD j s)) ∧
    (∀ j, j + 2 < (s :: tr).length →
      cost ((s :: tr).getD j s) - cost ((s :: tr).getD (j + 1) s)
        > ε * uniq ((s :: tr).getD (j + 1) s)) ∧
    cost ((s :: tr).getD (tr.length - 1) s) - cost ((s :: tr).getD tr.length s)
      ≤ ε * uniq ((s :: tr).getD tr.length s) := by
  refine ⟨rfl, ?_⟩
  revert i s tr
  induction fuel with
  | zero =>
    intro i s tr h
    rw [optimizeLoop] at h
    simp at h
  | succ fuel ih =>
    intro i s tr h
    rw [optimizeLoop] at h
    by_cases hcond : cost s - cost (epoch i s) > ε * uniq (epoch i s)
    · rw [if_pos hcond] at h
      obtain ⟨tr2, h2, htr⟩ := Option.map_eq_some'.mp h
      subst htr
      obtain ⟨hne2, hep2, hgt2, hle2⟩ := ih (i + 1) (epoch i s) tr2 h2
      refine ⟨by simp, ?_, ?_, ?_⟩
      · intro j hj
        cases j with
        | zero => simp
        | succ jj =>
          have hj2 : jj + 1 < (epoch i s :: tr2).length := by
            simp only [List.length_cons] at hj ⊢
            omega
          have hstep := hep2 jj hj2
          have hlhs : (s :: epoch i s :: tr2).getD (jj + 1 + 1) s =
              (epoch i s :: tr2).getD (jj + 1) (epoch i s) := by
            rw [List.getD_cons_succ]
            exact getD_irrel _ _ hj2 s (epoch i s)
          have hrhs : (s :: epoch i s :: tr2).getD (jj + 1) s =
              (epoch i s :: tr2).getD jj (epoch i s) := by
            rw [List.getD_cons_succ]
            exact getD_irrel _ _ (Nat.lt_of_succ_lt hj2) s (epoch i s)
          rw [hlhs, hrhs, show i + (jj + 1) = i + 1 + jj from by omega]
          exact hstep
      · intro j hj
        cases j with
        | zero =>
          simp only [List.getD_cons_succ, List.getD_cons_zero]
          exact hcond
        | succ jj =>
          have hj2 : jj + 2 < (epoch i s :: tr2).length := by
            simp only [List.length_cons] at hj ⊢
            omega
          have hstep := hgt2 jj hj2
          have hA : (s :: epoch i s :: tr2).getD (jj + 1) s =
              (epoch i s :: tr2).getD jj (epoch i s) := by
            rw [List.getD_cons_succ]
            exact getD_irrel _ _ (by omega) s (epoch i s)
          have hB : (s :: epoch i s :: tr2).getD (jj + 1 + 1) s =
              (epoch i s :: tr2).getD (jj + 1) (epoch i s) := by
            rw [List.getD_cons_succ]
            exact getD_irrel _ _ (by omega) s (epoch i s)
          rw [hA, hB]
          exact hstep
      · obtain ⟨m, hm⟩ : ∃ m, tr2.length = m + 1 := by
          cases tr2 with
          | nil => exact absurd rfl hne2
          | cons a l => exact ⟨l.length, by simp⟩
        simp only [List.length_cons]
        have hA : (s :: epoch i s :: tr2).getD (tr2.length + 1 - 1) s =
            (epoch i s :: tr2).getD (tr2.length - 1) (epoch i s) := by
          rw [show tr2.length + 1 - 1 = tr2.length from rfl, hm,
              show m + 1 - 1 = m from rfl, List.getD_cons_succ]
          exact getD_irrel _ _ (by simp only [List.length_cons]; omega) s (epoch i s)
        have hB : (s :: epoch i s :: tr2).getD (tr2.length + 1) s =
            (epoch i s :: tr2).getD tr2.length (epoch i s) := by
          rw [List.getD_cons_succ]
          exact getD_irrel _ _ (by simp only [List.length_cons]; omega) s (epoch i s)
        rw [hA, hB]
        exact hle2
    · rw [if_neg hcond] at h
      have htr : tr = [epoch i s] := by
        injection h with h2
        exact h2.symm
      subst htr
      refine ⟨by simp, ?_, ?_, ?_⟩
      · intro j hj
        have hj0 : j = 0 := by
          simp only [List.length_cons, List.length_nil] at hj
          omega
        subst hj0
        simp
      · intro j hj
        simp only [List.length_cons, List.length_nil] at hj
        omega
      · simp only [List.length_cons, List.length_nil, List.getD_cons_succ,
          List.getD_cons_zero]
        exact not_lt.mp hcond

/-- Witness for C4: the identity epoch with constant cost converges
after the first epoch. -/
theorem c4_witness :
    optimizeLoop (fun _ s => s) (fun _ => (0 : Rat)) (fun _ => 1)
      convergenceThresholdDefault 1 0 (0 : Nat) = some [0] ∧
    ((0 : Rat) - 0 ≤ convergenceThresholdDefault * 1) := by
  have hrun : optimizeLoop (fun _ s => s) (fun _ => (0 : Rat)) (fun _ => 1)
      convergenceThresholdDefault 1 0 (0 : Nat) = some [0] := by
    rw [optimizeLoop]
    norm_num [convergenceThresholdDefault]
  refine ⟨hrun, ?_⟩
  have happ := c4_optimize_loop_convergence (fun _ s => s) (fun _ => (0 : Rat))
    (fun _ => 1) convergenceThresholdDefault 1 0 0 [0] hrun
  simpa using happ.2.2.2.2

/-- Claim C10: `SegmentTestCorpus` is read-only and deterministic: the
tree/model state it returns is the state it was given, and a second
call from that state over the same corpus returns the same
segmentation list.  Both hold by construction because the embedded
method performs no writes. -/
theorem c10_segment_test_corpus_pure {C : Type} [LinearOrderedField C]
    (lnC : Nat → C) (truncC : C → Int) (st : Store × Nat) (corpus : List String) :
    (segmentTestCorpus lnC truncC st corpus).1 = st ∧
    (segmentTestCorpus lnC truncC (segmentTestCorpus lnC truncC st corpus).1 corpus).2 =
      (segmentTestCorpus lnC truncC st corpus).2 :=
  ⟨rfl, rfl⟩

/-- Claim C6 (code bug): the claim says a known morph of count `c`
is charged `ln(total) − ln(c)`.  In the code the accumulator is
`auto morph_cost = 0`, i.e. `int`: with leaf `"a"` of count 1 and
`total = 3` the charge actually recorded is the integer `1`, and
`(1 : ℝ) ≠ ln 3 − ln 1`.  Moreover the code tests `contains`, so a
non-leaf node (here `"ab"`, `isLeafNode = false`) is also charged,
while the claim restricts the rule to leaves. -/
theorem c6_viterbi_cost_truncated_to_int :
    viterbiMorphCost lnNat truncToInt [("a", ⟨1, "", ""⟩)] 3 1 "a" = some 1 ∧
    ((1 : Int) : Real) ≠ lnNat 3 - lnNat 1 ∧
    isLeafNode ⟨5, "a", "b"⟩ = false ∧
    viterbiMorphCost lnNat truncToInt
      [("ab", ⟨5, "a", "b"⟩), ("a", ⟨5, "", ""⟩), ("b", ⟨5, "", ""⟩)] 20 2 "ab" ≠ none := by
  have hln1 : lnNat 1 = 0 := by simp [lnNat]
  have hln3 : lnNat 3 = Real.log 3 := by simp [lnNat]
  have hlb : (1 : Real) < Real.log 3 := by
    rw [Real.lt_log_iff_exp_lt (by norm_num : (0 : Real) < 3)]
    calc Real.exp 1 < 2.7182818286 := Real.exp_one_lt_d9
      _ < 3 := by norm_num
  have hub : Real.log 3 < 2 := by
    rw [Real.log_lt_iff_lt_exp (by norm_num : (0 : Real) < 3)]
    rw [show (2 : Real) = 1 + 1 from by norm_num, Real.exp_add]
    nlinarith [Real.exp_one_gt_d9]
  refine ⟨?_, ?_, by decide, ?_⟩
  · show some (truncToInt (lnNat 3 - lnNat 1)) = some 1
    rw [hln1, sub_zero, hln3]
    unfold truncToInt
    rw [if_pos (by linarith)]
    congr 1
    rw [Int.floor_eq_iff]
    constructor
    · push_cast
      linarith
    · push_cast
      linarith
  · intro h
    rw [hln1, sub_zero, hln3] at h
    push_cast at h
    linarith
  · show some (truncToInt (lnNat 20 - lnNat 5)) ≠ none
    simp

/-- Folding the space-joiner from an arbitrary accumulator appends the
accumulator after the joined list. -/
theorem joinSpace_foldr_shift (A : List String) :
    ∀ b : String,
      List.foldr (fun m acc => m ++ " " ++ acc) b A = joinSpace A ++ b := by
  induction A with
  | nil =>
    intro b
    simp [joinSpace]
  | cons a A ih =>
    intro b
    simp only [joinSpace] at ih ⊢
    simp only [List.foldr]
    rw [ih b]
    simp only [String.append_assoc]

/-- Appending one morph to the list appends `morph ++ " "` to the join. -/
theorem joinSpace_append_single (A : List String) (x : String) :
    joinSpace (A ++ [x]) = joinSpace A ++ (x ++ " ") := by
  show List.foldr (fun m acc => m ++ " " ++ acc) "" (A ++ [x]) = _
  rw [List.foldr_append]
  rw [show List.foldr (fun m acc => m ++ " " ++ acc) "" [x] = x ++ " " from by
    simp [List.foldr]]
  exact joinSpace_foldr_shift A (x ++ " ")

/-- The string built by the backtrace loop is exactly the space-join of
the backtraced morph list (each morph followed by one space). -/
theorem backtrace_joins (word : String) (psi : List Nat) :
    ∀ fuel e : Nat,
      viterbiBacktrace word psi fuel e =
        joinSpace (viterbiBacktraceList word psi fuel e) := by
  intro fuel
  induction fuel with
  | zero =>
    intro e
    rfl
  | succ fuel ih =>
    intro e
    rw [viterbiBacktrace, viterbiBacktraceList]
    by_cases hp : psi.getD e 0 = 0
    · rw [if_pos hp, if_pos hp]
      rfl
    · rw [if_neg hp, if_neg hp, ih, joinSpace_append_single]

/-- Claim C9 (amended): every entry returned by `SegmentTestCorpus` is
the word's backtraced morphs each followed by one space (so a nonempty
segmentation keeps its trailing space, which is not trimmed), and a
word whose backtrace stops immediately (`ψ[n] = 0`) yields the empty
string. -/
theorem c9_amended_segmentation_rendering {C : Type} [LinearOrderedField C]
    (lnC : Nat → C) (truncC : C → Int) (st : Store × Nat) (corpus : List String) :
    (segmentTestCorpus lnC truncC st corpus).2 =
      corpus.map (fun w => joinSpace (segmentWordMorphs lnC truncC st.1 st.2 w)) ∧
    ∀ w : String,
      (viterbiTables lnC truncC st.1 st.2 w w.length).2.getD w.length 0 = 0 →
        segmentWord lnC truncC st.1 st.2 w = "" := by
  constructor
  · show corpus.map (fun w => segmentWord lnC truncC st.1 st.2 w) = _
    congr 1
    funext w
    exact backtrace_joins w (viterbiTables lnC truncC st.1 st.2 w w.length).2
      (w.length + 1) w.length
  · intro w hzero
    show viterbiBacktrace w (viterbiTables lnC truncC st.1 st.2 w w.length).2
      (w.length + 1) w.length = ""
    rw [viterbiBacktrace]
    simp only [hzero]
    simp

/-- Witness for the amended C9 theorem at the empty word, whose
backtrace stops immediately. -/
theorem c9_amended_witness :
    (segmentTestCorpus lnNat truncToInt (([], 0) : Store × Nat) [""]).2 =
      [""].map (fun w => joinSpace (segmentWordMorphs lnNat truncToInt [] 0 w)) ∧
    (viterbiTables lnNat truncToInt [] 0 "" ("" : String).length).2.getD
        ("" : String).length 0 = 0 ∧
    segmentWord lnNat truncToInt [] 0 "" = "" :=
  ⟨(c9_amended_segmentation_rendering lnNat truncToInt ([], 0) [""]).1, rfl,
    (c9_amended_segmentation_rendering lnNat truncToInt ([], 0) [""]).2 "" rfl⟩

/-- Claim C9 (counterexample): segmenting the word `"a"` under the
one-leaf store `{a ↦ 3}` with `total = 3` returns `"a "`, keeping the
trailing space the claim says is trimmed. -/
theorem c9_counterexample_trailing_space :
    (segmentTestCorpus lnNat truncToInt ([("a", ⟨3, "", ""⟩)], 3) ["a"]).2 = ["a "] ∧
    ("a " : String) ≠ "a" := by
  have hln3 : lnNat 3 = Real.log 3 := by simp [lnNat]
  have hlog3pos : (0 : Real) < Real.log 3 := Real.log_pos (by norm_num)
  have hmc : viterbiMorphCost lnNat truncToInt [("a", ⟨3, "", ""⟩)] 3 1 "a" = some 0 := by
    show some (truncToInt (lnNat 3 - lnNat 3)) = some 0
    rw [sub_self]
    unfold truncToInt
    rw [if_pos le_rfl, Int.floor_zero]
  have hsub : strSub "a" (1 - 1) 1 = "a" := rfl
  have hgetD : ([(0 : Real), 0]).getD (1 - 1) 0 = 0 := rfl
  have hbest : viterbiBest lnNat truncToInt [("a", ⟨3, "", ""⟩)] 3 "a" 1
      [(0 : Real), 0] 1 = (0, 1) := by
    unfold viterbiBest
    rw [show List.range' 1 1 = [1] from rfl, List.foldl_cons, List.foldl_nil]
    simp only [hsub, hmc, hgetD]
    rw [if_pos ?hc]
    case hc =>
      rw [hln3]
      push_cast
      nlinarith [hlog3pos]
    norm_num
  have hpsi : (viterbiTables lnNat truncToInt [("a", ⟨3, "", ""⟩)] 3 "a" 1).2 = [0, 1] := by
    unfold viterbiTables
    rw [show List.range' 1 1 = [1] from rfl, List.foldl_cons, List.foldl_nil]
    simp [hbest]
  have hsw : segmentWord lnNat truncToInt [("a", ⟨3, "", ""⟩)] 3 "a" =
      viterbiBacktrace "a" (viterbiTables lnNat truncToInt
        [("a", ⟨3, "", ""⟩)] 3 "a" 1).2 2 1 := rfl
  have hbt : viterbiBacktrace "a" [0, 1] 2 1 = "a " := by decide
  constructor
  · show [segmentWord lnNat truncToInt [("a", ⟨3, "", ""⟩)] 3 "a"] = ["a "]
    rw [hsw, hpsi, hbt]
  · decide

/-- The pair tracked by one trial step: the running best is replaced
exactly when the trial cost is strictly smaller. -/
theorem resplitStep_snd {C : Type} [LinearOrderedField C] (cost : Store → C) (af : Nat)
    (morph : String) (frequency : Nat) (st : Store × (C × Nat)) (k : Nat) :
    (resplitStep cost af morph frequency st k).2 =
      if cost (adjustMorphCount af (adjustMorphCount af st.1 (strTake morph k)
          (frequency : Int)) (strDrop morph k) (frequency : Int)) < st.2.1
      then (cost (adjustMorphCount af (adjustMorphCount af st.1 (strTake morph k)
          (frequency : Int)) (strDrop morph k) (frequency : Int)), k)
      else st.2 :=
  rfl

/-- Invariant of the trial loop: the running best cost never exceeds the
`k = 0` baseline, and a nonzero best index records a strictly better
cost. -/
theorem resplitTrials_foldl_invariant {C : Type} [LinearOrderedField C]
    (cost : Store → C) (af : Nat) (morph : String) (frequency : Nat) (c0 : C) :
    ∀ (ks : List Nat) (s : Store) (b : C × Nat),
      b.1 ≤ c0 → (b.2 ≠ 0 → b.1 < c0) → (∀ k ∈ ks, k ≠ 0) →
      (ks.foldl (resplitStep cost af morph frequency) (s, b)).2.1 ≤ c0 ∧
      ((ks.foldl (resplitStep cost af morph frequency) (s, b)).2.2 ≠ 0 →
        (ks.foldl (resplitStep cost af morph frequency) (s, b)).2.1 < c0) := by
  intro ks
  induction ks with
  | nil =>
    intro s b h1 h2 _
    exact ⟨h1, h2⟩
  | cons k ks ih =>
    intro s b h1 h2 h3
    rw [List.foldl_cons]
    have hmain := ih (resplitStep cost af morph frequency (s, b) k).1
      (resplitStep cost af morph frequency (s, b) k).2 ?_ ?_
      (fun x hx => h3 x (List.mem_cons_of_mem k hx))
    · rw [Prod.mk.eta] at hmain
      exact hmain
    · rw [resplitStep_snd]
      by_cases hc : cost (adjustMorphCount af (adjustMorphCount af (s, b).1
          (strTake morph k) (frequency : Int)) (strDrop morph k) (frequency : Int)) <
          (s, b).2.1
      · rw [if_pos hc]
        exact le_of_lt (lt_of_lt_of_le hc h1)
      · rw [if_neg hc]
        exact h1
    · rw [resplitStep_snd]
      by_cases hc : cost (adjustMorphCount af (adjustMorphCount af (s, b).1
          (strTake morph k) (frequency : Int)) (strDrop morph k) (frequency : Int)) <
          (s, b).2.1
      · rw [if_pos hc]
        intro _
        exact lt_of_lt_of_le hc h1
      · rw [if_neg hc]
        exact h2

/-- Claim C5 (amended): the recalculated unsplit (`k = 0`) alternative
is the baseline of the trial loop, the loop's best cost never exceeds
it, a nonzero best split index is recorded only on a strictly better
cost, and when no trial improves on the baseline `ResplitNode` commits
nothing and ends in the recalculated unsplit state.  (The original
claim's "never increases overall_cost" part is refuted separately: the
baseline is the *recalculated* unsplit state, not the state the call
started from.) -/
theorem c5_amended_commit_only_on_strict_improvement {C : Type} [LinearOrderedField C]
    (cost : Store → C) (af fuel : Nat) (s : Store) (morph : String) :
    (resplitTrials cost af (resplitRemoved af s morph) morph (getCount s morph)
        (cost (resplitUnsplit af s morph))).2.1 ≤ cost (resplitUnsplit af s morph) ∧
    ((resplitTrials cost af (resplitRemoved af s morph) morph (getCount s morph)
        (cost (resplitUnsplit af s morph))).2.2 ≠ 0 →
      (resplitTrials cost af (resplitRemoved af s morph) morph (getCount s morph)
        (cost (resplitUnsplit af s morph))).2.1 < cost (resplitUnsplit af s morph)) ∧
    ((resplitTrials cost af (resplitRemoved af s morph) morph (getCount s morph)
        (cost (resplitUnsplit af s morph))).2.2 = 0 →
      resplitNode cost af (fuel + 1) s morph =
        adjustMorphCount af
          (resplitTrials cost af (resplitRemoved af s morph) morph (getCount s morph)
            (cost (resplitUnsplit af s morph))).1 morph (getCount s morph : Int)) := by
  have hinv := resplitTrials_foldl_invariant cost af morph (getCount s morph)
    (cost (resplitUnsplit af s morph)) (List.range' 1 (morph.length - 1))
    (resplitRemoved af s morph) (cost (resplitUnsplit af s morph), 0)
    le_rfl (fun h => absurd rfl h)
    (fun k hk => by
      have := List.mem_range'_1.mp hk
      omega)
  refine ⟨hinv.1, hinv.2, ?_⟩
  intro h0
  rw [resplitNode]
  simp only [h0]
  rw [if_neg (lt_irrefl 0)]

/-- Witness for the amended C5 theorem on the two-character leaf store
`{ab ↦ 1}`: with a cost that penalises the presence of `"ab"` the
single trial strictly improves on the baseline and records index 1;
with the constant cost no trial improves, the best index stays 0, and
the call ends in the re-added unsplit state. -/
theorem c5_amended_witness :
    ((resplitTrials (fun st => if containsKey st "ab" then (1 : Rat) else 0) 2
        (resplitRemoved 2 [("ab", ⟨1, "", ""⟩)] "ab") "ab"
        (getCount [("ab", ⟨1, "", ""⟩)] "ab")
        ((fun st => if containsKey st "ab" then (1 : Rat) else 0)
          (resplitUnsplit 2 [("ab", ⟨1, "", ""⟩)] "ab"))).2.2 ≠ 0 ∧
      (resplitTrials (fun st => if containsKey st "ab" then (1 : Rat) else 0) 2
        (resplitRemoved 2 [("ab", ⟨1, "", ""⟩)] "ab") "ab"
        (getCount [("ab", ⟨1, "", ""⟩)] "ab")
        ((fun st => if containsKey st "ab" then (1 : Rat) else 0)
          (resplitUnsplit 2 [("ab", ⟨1, "", ""⟩)] "ab"))).2.1 <
      (fun st => if containsKey st "ab" then (1 : Rat) else 0)
        (resplitUnsplit 2 [("ab", ⟨1, "", ""⟩)] "ab")) ∧
    ((resplitTrials (fun _ => (0 : Rat)) 2
        (resplitRemoved 2 [("ab", ⟨1, "", ""⟩)] "ab") "ab"
        (getCount [("ab", ⟨1, "", ""⟩)] "ab")
        ((fun _ => (0 : Rat)) (resplitUnsplit 2 [("ab", ⟨1, "", ""⟩)] "ab"))).2.2 = 0 ∧
      resplitNode (fun _ => (0 : Rat)) 2 1 [("ab", ⟨1, "", ""⟩)] "ab" =
        adjustMorphCount 2
          (resplitTrials (fun _ => (0 : Rat)) 2
            (resplitRemoved 2 [("ab", ⟨1, "", ""⟩)] "ab") "ab"
            (getCount [("ab", ⟨1, "", ""⟩)] "ab")
            ((fun _ => (0 : Rat)) (resplitUnsplit 2 [("ab", ⟨1, "", ""⟩)] "ab"))).1
          "ab" (getCount [("ab", ⟨1, "", ""⟩)] "ab" : Int)) :=
  ⟨⟨by decide,
    (c5_amended_commit_only_on_strict_improvement
      (fun st => if containsKey st "ab" then (1 : Rat) else 0) 2 0
      [("ab", ⟨1, "", ""⟩)] "ab").2.1 (by decide)⟩,
   ⟨by decide,
    (c5_amended_commit_only_on_strict_improvement (fun _ => (0 : Rat)) 2 0
      [("ab", ⟨1, "", ""⟩)] "ab").2.2 (by decide)⟩⟩

/-- Elementary two-sided bound on a logarithm difference:
`(b-a)/b ≤ ln b − ln a ≤ (b-a)/a`. -/
theorem log_diff_bounds (a b : Real) (ha : 0 < a) (hab : a ≤ b) :
    (b - a) / b ≤ Real.log b - Real.log a ∧ Real.log b - Real.log a ≤ (b - a) / a := by
  have hb : 0 < b := lt_of_lt_of_le ha hab
  constructor
  · have h1 : Real.log (a / b) ≤ a / b - 1 :=
      Real.log_le_sub_one_of_pos (div_pos ha hb)
    rw [Real.log_div (ne_of_gt ha) (ne_of_gt hb)] at h1
    have h2 : (b - a) / b = 1 - a / b := by
      field_simp
    linarith
  · have h1 : Real.log (b / a) ≤ b / a - 1 :=
      Real.log_le_sub_one_of_pos (div_pos hb ha)
    rw [Real.log_div (ne_of_gt hb) (ne_of_gt ha)] at h1
    have h2 : (b - a) / a = b / a - 1 := by
      field_simp
    linarith

/-- Rational lower bound on `ln 2` (from `e⁹ < 2¹³`). -/
theorem log_two_lb : (9 : Real) / 13 ≤ Real.log 2 := by
  have hexp : Real.exp 9 ≤ (2 : Real) ^ (13 : Nat) := by
    rw [show (9 : Real) = ((9 : Nat) : Real) from by norm_num, ← Real.exp_one_pow]
    calc Real.exp 1 ^ (9 : Nat) ≤ 2.7182818286 ^ (9 : Nat) :=
          pow_le_pow_left₀ (le_of_lt (Real.exp_pos 1)) (le_of_lt Real.exp_one_lt_d9) 9
      _ ≤ 2 ^ (13 : Nat) := by norm_num
  have hlog := Real.log_le_log (Real.exp_pos 9) hexp
  rw [Real.log_exp, Real.log_pow] at hlog
  push_cast at hlog
  linarith

/-- Rational upper bound on `ln 2` (from `2⁷⁵ < e⁵²`). -/
theorem log_two_ub : Real.log 2 ≤ (52 : Real) / 75 := by
  have hexp : (2 : Real) ^ (75 : Nat) ≤ Real.exp 52 := by
    rw [show (52 : Real) = ((52 : Nat) : Real) from by norm_num, ← Real.exp_one_pow]
    calc (2 : Real) ^ (75 : Nat) ≤ 2.7182818283 ^ (52 : Nat) := by norm_num
      _ ≤ Real.exp 1 ^ (52 : Nat) :=
          pow_le_pow_left₀ (by norm_num) (le_of_lt Real.exp_one_gt_d9) 52
  have hlog := Real.log_le_log (by positivity) hexp
  rw [Real.log_exp, Real.log_pow] at hlog
  push_cast at hlog
  linarith

/-- Rational lower bound on `ln 3 − ln 2 = ln (3/2)` (from
`e¹⁵·2³⁷ < 3³⁷`). -/
theorem log_three_sub_two_lb : (15 : Real) / 37 ≤ Real.log 3 - Real.log 2 := by
  have hexp : Real.exp 15 * (2 : Real) ^ (37 : Nat) ≤ (3 : Real) ^ (37 : Nat) := by
    rw [show (15 : Real) = ((15 : Nat) : Real) from by norm_num, ← Real.exp_one_pow]
    calc Real.exp 1 ^ (15 : Nat) * (2 : Real) ^ (37 : Nat)
        ≤ 2.7182818286 ^ (15 : Nat) * (2 : Real) ^ (37 : Nat) := by
          apply mul_le_mul_of_nonneg_right
          · exact pow_le_pow_left₀ (le_of_lt (Real.exp_pos 1))
              (le_of_lt Real.exp_one_lt_d9) 15
          · positivity
      _ ≤ (3 : Real) ^ (37 : Nat) := by norm_num
  have hlog := Real.log_le_log (by positivity) hexp
  rw [Real.log_mul (ne_of_gt (Real.exp_pos 15)) (by positivity),
    Real.log_exp, Real.log_pow, Real.log_pow] at hlog
  push_cast at hlog
  linarith

/-- Rational upper bound on `ln 3 − ln 2 = ln (3/2)` (from
`3³² < e¹³·2³²`). -/
theorem log_three_sub_two_ub : Real.log 3 - Real.log 2 ≤ (13 : Real) / 32 := by
  have hexp : (3 : Real) ^ (32 : Nat) ≤ Real.exp 13 * (2 : Real) ^ (32 : Nat) := by
    rw [show (13 : Real) = ((13 : Nat) : Real) from by norm_num, ← Real.exp_one_pow]
    calc (3 : Real) ^ (32 : Nat)
        ≤ 2.7182818283 ^ (13 : Nat) * (2 : Real) ^ (32 : Nat) := by norm_num
      _ ≤ Real.exp 1 ^ (13 : Nat) * (2 : Real) ^ (32 : Nat) := by
          apply mul_le_mul_of_nonneg_right
          · exact pow_le_pow_left₀ (by norm_num) (le_of_lt Real.exp_one_gt_d9) 13
          · positivity
  have hlog := Real.log_le_log (by positivity) hexp
  rw [Real.log_mul (ne_of_gt (Real.exp_pos 13)) (by positivity),
    Real.log_exp, Real.log_pow, Real.log_pow] at hlog
  push_cast at hlog
  linarith

/-- The hapax exponent of the default prior `p = 1/2`:
`e = log2(1 − 1/2) = −1`. -/
theorem logb_half : Real.logb 2 (1 - 1 / 2 : Real) = -1 := by
  rw [show (1 - 1 / 2 : Real) = 2⁻¹ from by norm_num, Real.logb_inv,
    Real.logb_self_eq_one (by norm_num)]

/-- The explicit-frequency leaf contribution at `e = −1`:
`−log2(c⁻¹ − (c+1)⁻¹) = log2 c + log2 (c+1)`. -/
theorem rpow_pair_neg_one (x : Real) (hx : 0 < x) :
    -(Real.logb 2 (x ^ (-1 : Real) - (x + 1) ^ (-1 : Real))) =
      Real.logb 2 x + Real.logb 2 (x + 1) := by
  have hx1 : (0 : Real) < x + 1 := by linarith
  rw [Real.rpow_neg_one, Real.rpow_neg_one]
  rw [show x⁻¹ - (x + 1)⁻¹ = (x * (x + 1))⁻¹ from by
    field_simp]
  rw [Real.logb_inv, Real.logb_mul (ne_of_gt hx) (ne_of_gt hx1), neg_neg]

/-- The `k = 1` trial state of the C5 scenario is strictly costlier
than the recalculated unsplit state. -/
theorem c5_unsplit_lt_trial1 :
    overallCostBF (1 / 2) c5Store c5Unsplit < overallCostBF (1 / 2) c5Store c5Trial1 := by
  have hlog2pos : (0 : Real) < Real.log 2 := Real.log_pos (by norm_num)
  have hne : Real.log 2 ≠ 0 := ne_of_gt hlog2pos
  have key : overallCostBF (1 / 2) c5Store c5Trial1 -
      overallCostBF (1 / 2) c5Store c5Unsplit =
      (7 * Real.log 8 - 9 * Real.log 9 + Real.log 10 + Real.log 201
        - 721 * Real.log 721 + 722 * Real.log 722 - Real.log 1830) / Real.log 2 := by
    have hl1 : leafList c5Trial1 =
        [("a", ⟨9, "", ""⟩), ("b", ⟨512, "", ""⟩), ("c", ⟨8, "", ""⟩),
         ("aaa", ⟨64, "", ""⟩), ("bbb", ⟨64, "", ""⟩), ("ccc", ⟨64, "", ""⟩),
         ("bc", ⟨1, "", ""⟩)] := rfl
    have hl0 : leafList c5Unsplit =
        [("a", ⟨8, "", ""⟩), ("b", ⟨512, "", ""⟩), ("c", ⟨8, "", ""⟩),
         ("aaa", ⟨64, "", ""⟩), ("bbb", ⟨64, "", ""⟩), ("ccc", ⟨64, "", ""⟩),
         ("abc", ⟨1, "", ""⟩)] := rfl
    have ht1 : leafTokenSum c5Trial1 = 722 := rfl
    have ht0 : leafTokenSum c5Unsplit = 721 := rfl
    have hn1 : numLeaves c5Trial1 = 7 := rfl
    have hn0 : numLeaves c5Unsplit = 7 := rfl
    have htab : lettersDenom c5Store true = 1830 := rfl
    have hta : letterCount c5Store 'a' = 201 := rfl
    have htb : letterCount c5Store 'b' = 705 := rfl
    have htc : letterCount c5Store 'c' = 201 := rfl
    have htt : leafTokenSum c5Store = 723 := rfl
    have hsa : ("a" : String).data = ['a'] := rfl
    have hsb : ("b" : String).data = ['b'] := rfl
    have hsc : ("c" : String).data = ['c'] := rfl
    have hsaaa : ("aaa" : String).data = ['a', 'a', 'a'] := rfl
    have hsbbb : ("bbb" : String).data = ['b', 'b', 'b'] := rfl
    have hsccc : ("ccc" : String).data = ['c', 'c', 'c'] := rfl
    have hsbc : ("bc" : String).data = ['b', 'c'] := rfl
    have hsabc : ("abc" : String).data = ['a', 'b', 'c'] := rfl
    simp only [overallCostBF, corpusCostR, freqCostR, lengthCostImplicitR,
      stringCostR, orderingCostR, endMarkerCostR, letterCostR,
      hl1, hl0, ht1, ht0, hn1, hn0, htab, hta, htb, htc, htt,
      hsa, hsb, hsc, hsaaa, hsbbb, hsccc, hsbc, hsabc,
      List.map_cons, List.map_nil, List.sum_cons, List.sum_nil, logb_half]
    push_cast
    simp only [rpow_pair_neg_one 9 (by norm_num), rpow_pair_neg_one 512 (by norm_num),
      rpow_pair_neg_one 8 (by norm_num), rpow_pair_neg_one 64 (by norm_num),
      rpow_pair_neg_one 1 (by norm_num)]
    norm_num [Real.logb]
    field_simp
    ring
  have hb721_722 := log_diff_bounds 721 722 (by norm_num) (by norm_num)
  have hb722 := log_diff_bounds 722 729 (by norm_num) (by norm_num)
  have hb201 := log_diff_bounds 200 201 (by norm_num) (by norm_num)
  have hb1830 := log_diff_bounds 1800 1830 (by norm_num) (by norm_num)
  have hb125 := log_diff_bounds 125 128 (by norm_num) (by norm_num)
  have h729 : Real.log 729 = 6 * Real.log 3 := by
    rw [show (729 : Real) = 3 ^ (6 : Nat) from by norm_num, Real.log_pow]
    push_cast
    ring
  have h128 : Real.log 128 = 7 * Real.log 2 := by
    rw [show (128 : Real) = 2 ^ (7 : Nat) from by norm_num, Real.log_pow]
    push_cast
    ring
  have h125 : Real.log 125 = 3 * Real.log 5 := by
    rw [show (125 : Real) = 5 ^ (3 : Nat) from by norm_num, Real.log_pow]
    push_cast
    ring
  have h200 : Real.log 200 = 3 * Real.log 2 + 2 * Real.log 5 := by
    rw [show (200 : Real) = 2 ^ (3 : Nat) * 5 ^ (2 : Nat) from by norm_num,
      Real.log_mul (by positivity) (by positivity), Real.log_pow, Real.log_pow]
    push_cast
    ring
  have h1800 : Real.log 1800 = 3 * Real.log 2 + 2 * Real.log 3 + 2 * Real.log 5 := by
    rw [show (1800 : Real) = 2 ^ (3 : Nat) * (3 ^ (2 : Nat) * 5 ^ (2 : Nat)) from by
        norm_num,
      Real.log_mul (by positivity) (by positivity),
      Real.log_mul (by positivity) (by positivity),
      Real.log_pow, Real.log_pow, Real.log_pow]
    push_cast
    ring
  have h8 : Real.log 8 = 3 * Real.log 2 := by
    rw [show (8 : Real) = 2 ^ (3 : Nat) from by norm_num, Real.log_pow]
    push_cast
    ring
  have h9 : Real.log 9 = 2 * Real.log 3 := by
    rw [show (9 : Real) = 3 ^ (2 : Nat) from by norm_num, Real.log_pow]
    push_cast
    ring
  have h10 : Real.log 10 = Real.log 2 + Real.log 5 := by
    rw [show (10 : Real) = 2 * 5 from by norm_num,
      Real.log_mul (by norm_num) (by norm_num)]
  have hD : 0 < 7 * Real.log 8 - 9 * Real.log 9 + Real.log 10 + Real.log 201
      - 721 * Real.log 721 + 722 * Real.log 722 - Real.log 1830 := by
    have hL2lo := log_two_lb
    have hL2hi := log_two_ub
    have hL32lo := log_three_sub_two_lb
    have hL32hi := log_three_sub_two_ub
    linarith [hb721_722.1, hb721_722.2, hb722.1, hb722.2, hb201.1, hb201.2,
      hb1830.1, hb1830.2, hb125.1, hb125.2]
  have hfin := div_pos hD hlog2pos
  linarith

/-- The `k = 2` trial state of the C5 scenario is strictly costlier
than the recalculated unsplit state. -/
theorem c5_unsplit_lt_trial2 :
    overallCostBF (1 / 2) c5Store c5Unsplit < overallCostBF (1 / 2) c5Store c5Trial2 := by
  have hlog2pos : (0 : Real) < Real.log 2 := Real.log_pos (by norm_num)
  have hne : Real.log 2 ≠ 0 := ne_of_gt hlog2pos
  have key : overallCostBF (1 / 2) c5Store c5Trial2 -
      overallCostBF (1 / 2) c5Store c5Unsplit =
      (7 * Real.log 8 - 9 * Real.log 9 + Real.log 10 + Real.log 201
        - 721 * Real.log 721 + 722 * Real.log 722 - Real.log 1830) / Real.log 2 := by
    have hl1 : leafList c5Trial2 =
        [("a", ⟨8, "", ""⟩), ("b", ⟨512, "", ""⟩), ("c", ⟨9, "", ""⟩),
         ("aaa", ⟨64, "", ""⟩), ("bbb", ⟨64, "", ""⟩), ("ccc", ⟨64, "", ""⟩),
         ("ab", ⟨1, "", ""⟩)] := rfl
    have hl0 : leafList c5Unsplit =
        [("a", ⟨8, "", ""⟩), ("b", ⟨512, "", ""⟩), ("c", ⟨8, "", ""⟩),
         ("aaa", ⟨64, "", ""⟩), ("bbb", ⟨64, "", ""⟩), ("ccc", ⟨64, "", ""⟩),
         ("abc", ⟨1, "", ""⟩)] := rfl
    have ht1 : leafTokenSum c5Trial2 = 722 := rfl
    have ht0 : leafTokenSum c5Unsplit = 721 := rfl
    have hn1 : numLeaves c5Trial2 = 7 := rfl
    have hn0 : numLeaves c5Unsplit = 7 := rfl
    have htab : lettersDenom c5Store true = 1830 := rfl
    have hta : letterCount c5Store 'a' = 201 := rfl
    have htb : letterCount c5Store 'b' = 705 := rfl
    have htc : letterCount c5Store 'c' = 201 := rfl
    have htt : leafTokenSum c5Store = 723 := rfl
    have hsa : ("a" : String).data = ['a'] := rfl
    have hsb : ("b" : String).data = ['b'] := rfl
    have hsc : ("c" : String).data = ['c'] := rfl
    have hsaaa : ("aaa" : String).data = ['a', 'a', 'a'] := rfl
    have hsbbb : ("bbb" : String).data = ['b', 'b', 'b'] := rfl
    have hsccc : ("ccc" : String).data = ['c', 'c', 'c'] := rfl
    have hsab : ("ab" : String).data = ['a', 'b'] := rfl
    have hsabc : ("abc" : String).data = ['a', 'b', 'c'] := rfl
    simp only [overallCostBF, corpusCostR, freqCostR, lengthCostImplicitR,
      stringCostR, orderingCostR, endMarkerCostR, letterCostR,
      hl1, hl0, ht1, ht0, hn1, hn0, htab, hta, htb, htc, htt,
      hsa, hsb, hsc, hsaaa, hsbbb, hsccc, hsab, hsabc,
      List.map_cons, List.map_nil, List.sum_cons, List.sum_nil, logb_half]
    push_cast
    simp only [rpow_pair_neg_one 9 (by norm_num), rpow_pair_neg_one 512 (by norm_num),
      rpow_pair_neg_one 8 (by norm_num), rpow_pair_neg_one 64 (by norm_num),
      rpow_pair_neg_one 1 (by norm_num)]
    norm_num [Real.logb]
    field_simp
    ring
  have hb721_722 := log_diff_bounds 721 722 (by norm_num) (by norm_num)
  have hb722 := log_diff_bounds 722 729 (by norm_num) (by norm_num)
  have hb201 := log_diff_bounds 200 201 (by norm_num) (by norm_num)
  have hb1830 := log_diff_bounds 1800 1830 (by norm_num) (by norm_num)
  have hb125 := log_diff_bounds 125 128 (by norm_num) (by norm_num)
  have h729 : Real.log 729 = 6 * Real.log 3 := by
    rw [show (729 : Real) = 3 ^ (6 : Nat) from by norm_num, Real.log_pow]
    push_cast
    ring
  have h128 : Real.log 128 = 7 * Real.log 2 := by
    rw [show (128 : Real) = 2 ^ (7 : Nat) from by norm_num, Real.log_pow]
    push_cast
    ring
  have h125 : Real.log 125 = 3 * Real.log 5 := by
    rw [show (125 : Real) = 5 ^ (3 : Nat) from by norm_num, Real.log_pow]
    push_cast
    ring
  have h200 : Real.log 200 = 3 * Real.log 2 + 2 * Real.log 5 := by
    rw [show (200 : Real) = 2 ^ (3 : Nat) * 5 ^ (2 : Nat) from by norm_num,
      Real.log_mul (by positivity) (by positivity), Real.log_pow, Real.log_pow]
    push_cast
    ring
  have h1800 : Real.log 1800 = 3 * Real.log 2 + 2 * Real.log 3 + 2 * Real.log 5 := by
    rw [show (1800 : Real) = 2 ^ (3 : Nat) * (3 ^ (2 : Nat) * 5 ^ (2 : Nat)) from by
        norm_num,
      Real.log_mul (by positivity) (by positivity),
      Real.log_mul (by positivity) (by positivity),
      Real.log_pow, Real.log_pow, Real.log_pow]
    push_cast
    ring
  have h8 : Real.log 8 = 3 * Real.log 2 := by
    rw [show (8 : Real) = 2 ^ (3 : Nat) from by norm_num, Real.log_pow]
    push_cast
    ring
  have h9 : Real.log 9 = 2 * Real.log 3 := by
    rw [show (9 : Real) = 3 ^ (2 : Nat) from by norm_num, Real.log_pow]
    push_cast
    ring
  have h10 : Real.log 10 = Real.log 2 + Real.log 5 := by
    rw [show (10 : Real) = 2 * 5 from by norm_num,
      Real.log_mul (by norm_num) (by norm_num)]
  have hD : 0 < 7 * Real.log 8 - 9 * Real.log 9 + Real.log 10 + Real.log 201
      - 721 * Real.log 721 + 722 * Real.log 722 - Real.log 1830 := by
    have hL2lo := log_two_lb
    have hL2hi := log_two_ub
    have hL32lo := log_three_sub_two_lb
    have hL32hi := log_three_sub_two_ub
    linarith [hb721_722.1, hb721_722.2, hb722.1, hb722.2, hb201.1, hb201.2,
      hb1830.1, hb1830.2, hb125.1, hb125.2]
  have hfin := div_pos hD hlog2pos
  linarith

/-- The C5 scenario's entry state is strictly cheaper than the
recalculated unsplit state `ResplitNode("abc")` ends in. -/
theorem c5_entry_lt_unsplit :
    overallCostBF (1 / 2) c5Store c5Store < overallCostBF (1 / 2) c5Store c5Unsplit := by
  have hlog2pos : (0 : Real) < Real.log 2 := Real.log_pos (by norm_num)
  have hne : Real.log 2 ≠ 0 := ne_of_gt hlog2pos
  have key : overallCostBF (1 / 2) c5Store c5Unsplit -
      overallCostBF (1 / 2) c5Store c5Store =
      (1 + Real.log 2 + 6 * Real.log 6 - 7 * Real.log 7 - 14 * Real.log 8
        + 18 * Real.log 9 - 2 * Real.log 10 - 2 * Real.log 201 - 511 * Real.log 512
        + 513 * Real.log 513 - Real.log 514 - Real.log 705 + 721 * Real.log 721
        - 724 * Real.log 723 + 4 * Real.log 1830) / Real.log 2 := by
    have hl1 : leafList c5Unsplit =
        [("a", ⟨8, "", ""⟩), ("b", ⟨512, "", ""⟩), ("c", ⟨8, "", ""⟩),
         ("aaa", ⟨64, "", ""⟩), ("bbb", ⟨64, "", ""⟩), ("ccc", ⟨64, "", ""⟩),
         ("abc", ⟨1, "", ""⟩)] := rfl
    have hl0 : leafList c5Store =
        [("a", ⟨9, "", ""⟩), ("b", ⟨513, "", ""⟩), ("c", ⟨9, "", ""⟩),
         ("aaa", ⟨64, "", ""⟩), ("bbb", ⟨64, "", ""⟩), ("ccc", ⟨64, "", ""⟩)] := rfl
    have ht1 : leafTokenSum c5Unsplit = 721 := rfl
    have hn1 : numLeaves c5Unsplit = 7 := rfl
    have hn0 : numLeaves c5Store = 6 := rfl
    have htab : lettersDenom c5Store true = 1830 := rfl
    have hta : letterCount c5Store 'a' = 201 := rfl
    have htb : letterCount c5Store 'b' = 705 := rfl
    have htc : letterCount c5Store 'c' = 201 := rfl
    have htt : leafTokenSum c5Store = 723 := rfl
    have hsa : ("a" : String).data = ['a'] := rfl
    have hsb : ("b" : String).data = ['b'] := rfl
    have hsc : ("c" : String).data = ['c'] := rfl
    have hsaaa : ("aaa" : String).data = ['a', 'a', 'a'] := rfl
    have hsbbb : ("bbb" : String).data = ['b', 'b', 'b'] := rfl
    have hsccc : ("ccc" : String).data = ['c', 'c', 'c'] := rfl
    have hsabc : ("abc" : String).data = ['a', 'b', 'c'] := rfl
    simp only [overallCostBF, corpusCostR, freqCostR, lengthCostImplicitR,
      stringCostR, orderingCostR, endMarkerCostR, letterCostR,
      hl1, hl0, ht1, hn1, hn0, htab, hta, htb, htc, htt,
      hsa, hsb, hsc, hsaaa, hsbbb, hsccc, hsabc,
      List.map_cons, List.map_nil, List.sum_cons, List.sum_nil, logb_half]
    push_cast
    simp only [rpow_pair_neg_one 9 (by norm_num), rpow_pair_neg_one 513 (by norm_num),
      rpow_pair_neg_one 512 (by norm_num), rpow_pair_neg_one 8 (by norm_num),
      rpow_pair_neg_one 64 (by norm_num), rpow_pair_neg_one 1 (by norm_num)]
    norm_num [Real.logb]
    field_simp
    ring
  have hb512_513 := log_diff_bounds 512 513 (by norm_num) (by norm_num)
  have hb512_514 := log_diff_bounds 512 514 (by norm_num) (by norm_num)
  have hb721_723 := log_diff_bounds 721 723 (by norm_num) (by norm_num)
  have hb723 := log_diff_bounds 723 729 (by norm_num) (by norm_num)
  have hb705 := log_diff_bounds 705 720 (by norm_num) (by norm_num)
  have hb201 := log_diff_bounds 200 201 (by norm_num) (by norm_num)
  have hb1830 := log_diff_bounds 1800 1830 (by norm_num) (by norm_num)
  have hb125 := log_diff_bounds 125 128 (by norm_num) (by norm_num)
  have hb48_49 := log_diff_bounds 48 49 (by norm_num) (by norm_num)
  have h729 : Real.log 729 = 6 * Real.log 3 := by
    rw [show (729 : Real) = 3 ^ (6 : Nat) from by norm_num, Real.log_pow]
    push_cast
    ring
  have h512 : Real.log 512 = 9 * Real.log 2 := by
    rw [show (512 : Real) = 2 ^ (9 : Nat) from by norm_num, Real.log_pow]
    push_cast
    ring
  have h49 : Real.log 49 = 2 * Real.log 7 := by
    rw [show (49 : Real) = 7 ^ (2 : Nat) from by norm_num, Real.log_pow]
    push_cast
    ring
  have h48 : Real.log 48 = 4 * Real.log 2 + Real.log 3 := by
    rw [show (48 : Real) = 2 ^ (4 : Nat) * 3 from by norm_num,
      Real.log_mul (by positivity) (by norm_num), Real.log_pow]
    push_cast
    ring
  have h720 : Real.log 720 = 4 * Real.log 2 + 2 * Real.log 3 + Real.log 5 := by
    rw [show (720 : Real) = 2 ^ (4 : Nat) * (3 ^ (2 : Nat) * 5) from by norm_num,
      Real.log_mul (by positivity) (by positivity),
      Real.log_mul (by positivity) (by norm_num), Real.log_pow, Real.log_pow]
    push_cast
    ring
  have h6 : Real.log 6 = Real.log 2 + Real.log 3 := by
    rw [show (6 : Real) = 2 * 3 from by norm_num,
      Real.log_mul (by norm_num) (by norm_num)]
  have h128 : Real.log 128 = 7 * Real.log 2 := by
    rw [show (128 : Real) = 2 ^ (7 : Nat) from by norm_num, Real.log_pow]
    push_cast
    ring
  have h125 : Real.log 125 = 3 * Real.log 5 := by
    rw [show (125 : Real) = 5 ^ (3 : Nat) from by norm_num, Real.log_pow]
    push_cast
    ring
  have h200 : Real.log 200 = 3 * Real.log 2 + 2 * Real.log 5 := by
    rw [show (200 : Real) = 2 ^ (3 : Nat) * 5 ^ (2 : Nat) from by norm_num,
      Real.log_mul (by positivity) (by positivity), Real.log_pow, Real.log_pow]
    push_cast
    ring
  have h1800 : Real.log 1800 = 3 * Real.log 2 + 2 * Real.log 3 + 2 * Real.log 5 := by
    rw [show (1800 : Real) = 2 ^ (3 : Nat) * (3 ^ (2 : Nat) * 5 ^ (2 : Nat)) from by
        norm_num,
      Real.log_mul (by positivity) (by positivity),
      Real.log_mul (by positivity) (by positivity),
      Real.log_pow, Real.log_pow, Real.log_pow]
    push_cast
    ring
  have h8 : Real.log 8 = 3 * Real.log 2 := by
    rw [show (8 : Real) = 2 ^ (3 : Nat) from by norm_num, Real.log_pow]
    push_cast
    ring
  have h9 : Real.log 9 = 2 * Real.log 3 := by
    rw [show (9 : Real) = 3 ^ (2 : Nat) from by norm_num, Real.log_pow]
    push_cast
    ring
  have h10 : Real.log 10 = Real.log 2 + Real.log 5 := by
    rw [show (10 : Real) = 2 * 5 from by norm_num,
      Real.log_mul (by norm_num) (by norm_num)]
  have hD : 0 < 1 + Real.log 2 + 6 * Real.log 6 - 7 * Real.log 7 - 14 * Real.log 8
      + 18 * Real.log 9 - 2 * Real.log 10 - 2 * Real.log 201 - 511 * Real.log 512
      + 513 * Real.log 513 - Real.log 514 - Real.log 705 + 721 * Real.log 721
      - 724 * Real.log 723 + 4 * Real.log 1830 := by
    have hL2lo := log_two_lb
    have hL2hi := log_two_ub
    have hL32lo := log_three_sub_two_lb
    have hL32hi := log_three_sub_two_ub
    linarith [hb512_513.1, hb512_513.2, hb512_514.1, hb512_514.2,
      hb721_723.1, hb721_723.2, hb723.1, hb723.2, hb705.1, hb705.2,
      hb201.1, hb201.2, hb1830.1, hb1830.2, hb125.1, hb125.2,
      hb48_49.1, hb48_49.2]
  have hfin := div_pos hD hlog2pos
  linarith

/-- One trial step, fully unfolded. -/
theorem resplitStep_eq {C : Type} [LinearOrderedField C] (cost : Store → C) (af : Nat)
    (morph : String) (frequency : Nat) (st : Store × (C × Nat)) (k : Nat) :
    resplitStep cost af morph frequency st k =
      (adjustMorphCount af (adjustMorphCount af
          (adjustMorphCount af (adjustMorphCount af st.1 (strTake morph k)
            (frequency : Int)) (strDrop morph k) (frequency : Int))
          (strTake morph k) (-(frequency : Int))) (strDrop morph k)
        (-(frequency : Int)),
       if cost (adjustMorphCount af (adjustMorphCount af st.1 (strTake morph k)
           (frequency : Int)) (strDrop morph k) (frequency : Int)) < st.2.1
       then (cost (adjustMorphCount af (adjustMorphCount af st.1 (strTake morph k)
           (frequency : Int)) (strDrop morph k) (frequency : Int)), k)
       else st.2) :=
  rfl

/-- Running `ResplitNode("abc")` on the C5 scenario: neither trial
improves on the recalculated unsplit baseline, so nothing is committed
and the call ends in the unsplit state. -/
theorem c5_run :
    resplitNode (overallCostBF (1 / 2) c5Store) 8 1 c5Store "abc" = c5Unsplit := by
  have hc1 : ¬(overallCostBF (1 / 2) c5Store c5Trial1 <
      overallCostBF (1 / 2) c5Store c5Unsplit) :=
    not_lt.mpr (le_of_lt c5_unsplit_lt_trial1)
  have hc2 : ¬(overallCostBF (1 / 2) c5Store c5Trial2 <
      overallCostBF (1 / 2) c5Store c5Unsplit) :=
    not_lt.mpr (le_of_lt c5_unsplit_lt_trial2)
  rw [resplitNode]
  simp only [show getCount c5Store "abc" = 1 from rfl,
    show resplitRemoved 8 c5Store "abc" = c5Base from rfl,
    show resplitUnsplit 8 c5Store "abc" = c5Unsplit from rfl,
    resplitTrials, show ("abc" : String).length - 1 = 2 from rfl,
    show List.range' 1 2 = [1, 2] from rfl,
    List.foldl_cons, List.foldl_nil, resplitStep_eq,
    show strTake "abc" 1 = "a" from rfl, show strDrop "abc" 1 = "bc" from rfl,
    show strTake "abc" 2 = "ab" from rfl, show strDrop "abc" 2 = "c" from rfl,
    Nat.cast_one,
    show adjustMorphCount 8 (adjustMorphCount 8 c5Base "a" (1 : Int)) "bc"
      (1 : Int) = c5Trial1 from rfl,
    show adjustMorphCount 8 (adjustMorphCount 8 c5Trial1 "a" (-(1 : Int))) "bc"
      (-(1 : Int)) = c5Base from rfl,
    show adjustMorphCount 8 (adjustMorphCount 8 c5Base "ab" (1 : Int)) "c"
      (1 : Int) = c5Trial2 from rfl,
    show adjustMorphCount 8 (adjustMorphCount 8 c5Trial2 "ab" (-(1 : Int))) "c"
      (-(1 : Int)) = c5Base from rfl,
    hc1, hc2, ite_false]
  norm_num [show adjustMorphCount 8 c5Base "abc" (1 : Int) = c5Unsplit from rfl]

/-- Claim C5 (counterexample): `ResplitNode` *can* increase the overall
cost.  On the entry state whose current segmentation splits `abc` into
`a + (b + c)`, the call flattens that segmentation, re-adds `abc` as a
single unsplit leaf, finds that neither single split beats the unsplit
baseline, commits nothing — and the unsplit state it ends in is
strictly costlier (by ≈ 4.37 bits, `BaselineFreq` mode, hapax prior
`1/2`, letter table from the entry state) than the entry state. -/
theorem c5_counterexample_resplit_increases_cost :
    resplitNode (overallCostBF (1 / 2) c5Store) 8 1 c5Store "abc" = c5Unsplit ∧
    overallCostBF (1 / 2) c5Store c5Store <
      overallCostBF (1 / 2) c5Store
        (resplitNode (overallCostBF (1 / 2) c5Store) 8 1 c5Store "abc") := by
  refine ⟨c5_run, ?_⟩
  rw [c5_run]
  exact c5_entry_lt_unsplit

/-- Witness for C7 at the one-leaf store `{a ↦ 1}` in end-marker mode. -/
theorem c7_witness :
    (∀ p ∈ ([("a", ⟨1, "", ""⟩)] : Store), 0 < p.2.count) ∧
    0 < totalLetters [("a", ⟨1, "", ""⟩)] ∧
    |Finset.sum (letterSet [("a", ⟨1, "", ""⟩)])
        (fun ch => (2 : Real) ^ (-(letterCostR [("a", ⟨1, "", ""⟩)] true ch)))
      + (if true = true then (2 : Real) ^ (-(endMarkerCostR [("a", ⟨1, "", ""⟩)] true)) else 0)
      - 1| ≤ 1 / 10 ^ 9 :=
  ⟨by decide, by decide,
    c7_letter_probability_law [("a", ⟨1, "", ""⟩)] true (by decide) (by decide)
      (fun _ => by decide)⟩

end Morfessor
